/-
Verification of the rtvox sparse voxel octree core (src/aabc.rs, src/octree.rs)
against its natural-language specification.

The Rust source is shallowly embedded below:
 * `vecmath::Vector3<i32>` becomes the structure `V3` with three `Int` fields
   (the spec declares a "cube-shaped world of unbounded extent"; all cube
   arithmetic in the source stays far from the i32 boundaries for every
   reachable tree, so coordinates are modelled as unbounded integers).
 * `u32` sizes and counters become `Nat`.  The one place where u32 wrap-around
   is reachable (`n_leaves -= 1` on an empty tree) is modelled explicitly as a
   fault, matching the checked (debug) semantics of the binary that the
   repository's own `#[should_panic]` tests exercise.
 * `panic!`/`unreachable!` control flow becomes `Except Fault`.  Functions that
   mutate state through `&mut self` before they can panic return the state as
   observed at the panic point in the error case, so that claims about
   "the failed call must not mutate state" are genuine theorems.
-/
import Mathlib

namespace Rtvox

/-- A 3-component integer vector, embedding `vecmath::Vector3<i32>`. -/
structure V3 where
  x : Int
  y : Int
  z : Int
deriving DecidableEq, Repr

/-- Axis-aligned cube: `pub struct Aabc { origin: Vector3<i32>, size: u32 }`. -/
structure Aabc where
  origin : V3
  size : Nat
deriving DecidableEq, Repr

/-- `Aabc::contains`: each axis of `p` lies in `[origin, origin + size)`.
The Rust loop over the three axes is unrolled. -/
def Aabc.contains (a : Aabc) (p : V3) : Bool :=
  !(p.x < a.origin.x) && !(p.x ≥ a.origin.x + (a.size : Int)) &&
  !(p.y < a.origin.y) && !(p.y ≥ a.origin.y + (a.size : Int)) &&
  !(p.z < a.origin.z) && !(p.z ≥ a.origin.z + (a.size : Int))

/-- `Aabc::contains_aabc`: the other cube is enclosed on every axis. -/
def Aabc.contains_aabc (a : Aabc) (b : Aabc) : Bool :=
  !(b.origin.x < a.origin.x) && !(b.origin.x + (b.size : Int) > a.origin.x + (a.size : Int)) &&
  !(b.origin.y < a.origin.y) && !(b.origin.y + (b.size : Int) > a.origin.y + (a.size : Int)) &&
  !(b.origin.z < a.origin.z) && !(b.origin.z + (b.size : Int) > a.origin.z + (a.size : Int))

/-- The value computed by `Aabc::expand_towards` after its panic guard:
double the size, and on each axis where the target lies below the current
origin, shift the origin down by the current (pre-expansion) size. -/
def Aabc.expandCore (a : Aabc) (t : V3) : Aabc :=
  { origin :=
      { x := if t.x < a.origin.x then a.origin.x - (a.size : Int) else a.origin.x
        y := if t.y < a.origin.y then a.origin.y - (a.size : Int) else a.origin.y
        z := if t.z < a.origin.z then a.origin.z - (a.size : Int) else a.origin.z }
    size := a.size * 2 }

/-- The value computed by `Aabc::shrink_towards` after its panic guard:
halve the size, shifting the origin up by `size/2` on each axis where the
target falls in the upper half. -/
def Aabc.shrinkCore (a : Aabc) (t : V3) : Aabc :=
  { origin :=
      { x := if t.x ≥ a.origin.x + ((a.size / 2 : Nat) : Int) then a.origin.x + ((a.size / 2 : Nat) : Int) else a.origin.x
        y := if t.y ≥ a.origin.y + ((a.size / 2 : Nat) : Int) then a.origin.y + ((a.size / 2 : Nat) : Int) else a.origin.y
        z := if t.z ≥ a.origin.z + ((a.size / 2 : Nat) : Int) then a.origin.z + ((a.size / 2 : Nat) : Int) else a.origin.z }
    size := a.size / 2 }

/-- Faults: every `panic!`/`unreachable!` site of the embedded source, plus
`divergent`, a marker for the one loop (`insert_leaf`'s root-expansion loop on
a size-0 cube) that would not terminate in Rust; that state is unreachable
from any constructible octree. -/
inductive Fault where
  /-- `aabc.rs`: "cannot expand towards target inside aabc". -/
  | expandContained
  /-- `aabc.rs`: "cannot shrink towards target outside aabc". -/
  | shrinkOutside
  /-- `octree.rs get_octant_idx`: "target not contained within any octant". -/
  | octantNotFound
  /-- `octree.rs remove_child`: "child not found". -/
  | childNotFound
  /-- `octree.rs remove_child`: the `"????"` panic on a `Value` node. -/
  | removeFromValue
  /-- `octree.rs add_child`: "attempted to overwrite child" (duplicate position). -/
  | duplicateChild
  /-- `octree.rs add_child`: "child outside parent". -/
  | childOutsideParent
  /-- `octree.rs add_child`: "parent not twice as big as child". -/
  | parentSizeMismatch
  /-- `octree.rs add_child`: "cannot add a child to a leaf node". -/
  | addToLeaf
  /-- `octree.rs remove_leaf`: "cannot remove from empty tree". -/
  | emptyTree
  /-- `octree.rs serialize_recurse`: "single leaf tree not supported". -/
  | singleLeafTree
  /-- `octree.rs shrink_root`: "root is none". -/
  | rootNone
  /-- `octree.rs shrink_root`: `i.unwrap()` on `None`. -/
  | unwrapNone
  /-- `octree.rs add_down`: an `unreachable!` arm. -/
  | internal
  /-- `octree.rs remove_leaf`: `self.n_leaves -= 1` underflows (u32 checked
  subtraction panics for `n_leaves = 0`). -/
  | subUnderflow
  /-- Marker for Rust non-termination (expansion loop on a size-0 cube). -/
  | divergent
deriving DecidableEq, Repr

/-- `enum NodeData` + `struct Node` flattened into one inductive: a node is
either a `Children` node (8 optional child slots, kept as a list whose length
is 8 for every value that the Rust type `[Option<Box<Node<T>>>; 8]` can
represent) or a `Value` leaf; each carries its cube. -/
inductive Node (T : Type) : Type where
  | Children (aabc : Aabc) (children : List (Option (Node T)))
  | Value (aabc : Aabc) (v : T)
deriving Repr

/-- The cube carried by a node (`node.aabc`). -/
def Node.aabc {T : Type} : Node T → Aabc
  | .Children a _ => a
  | .Value a _ => a

/-- `Node::empty`: a `Children` node with all 8 slots `None`. -/
def Node.empty {T : Type} (origin : V3) (size : Nat) : Node T :=
  .Children { origin := origin, size := size }
    [none, none, none, none, none, none, none, none]

/-- `Node::new_leaf`: a `Value` node with a unit cube at `pos`. -/
def Node.newLeaf {T : Type} (data : T) (pos : V3) : Node T :=
  .Value { origin := pos, size := 1 } data

/-- The inner helper `octant_contains` of `get_octant_idx`: whether the
sub-octant of `parent` selected by the three upper-half flags contains
`target`. -/
def octantContains (o1 o2 o3 : Bool) (target parent : Aabc) : Bool :=
  let half : Nat := parent.size / 2
  let oct : Aabc :=
    { origin :=
        { x := parent.origin.x + (if o1 then (half : Int) else 0)
          y := parent.origin.y + (if o2 then (half : Int) else 0)
          z := parent.origin.z + (if o3 then (half : Int) else 0) }
      size := parent.size / 2 }
  oct.contains_aabc target

/-- `Node::get_octant_idx`: test the 8 octants in the source's order and
return the index of the first one containing `target`; panic otherwise. -/
def getOctantIdx {T : Type} (n : Node T) (target : Aabc) : Except Fault Nat :=
  if octantContains false false false target n.aabc then .ok 6
  else if octantContains true false false target n.aabc then .ok 5
  else if octantContains false true false target n.aabc then .ok 2
  else if octantContains true true false target n.aabc then .ok 1
  else if octantContains false false true target n.aabc then .ok 7
  else if octantContains true false true target n.aabc then .ok 4
  else if octantContains false true true target n.aabc then .ok 3
  else if octantContains true true true target n.aabc then .ok 0
  else .error .octantNotFound

/-- The fixed octant bijection of §4.2, read off `get_octant_idx`: the
upper-half flags of the octant that the source maps to index `i`. -/
def octantOffs (i : Nat) : Bool × Bool × Bool :=
  match i with
  | 0 => (true, true, true)
  | 1 => (true, true, false)
  | 2 => (false, true, false)
  | 3 => (false, true, true)
  | 4 => (true, false, true)
  | 5 => (true, false, false)
  | 6 => (false, false, false)
  | _ => (false, false, true)

/-- The inverse direction of the bijection: the index assigned to a triple of
upper-half flags. -/
def octIdx (o1 o2 o3 : Bool) : Nat :=
  if o1 then (if o2 then (if o3 then 0 else 1) else (if o3 then 4 else 5))
  else (if o2 then (if o3 then 3 else 2) else (if o3 then 7 else 6))

/-- The sub-octant cube of `a` at octant index `i` (under the fixed
bijection). -/
def octantCube (a : Aabc) (i : Nat) : Aabc :=
  let half : Nat := a.size / 2
  let o := octantOffs i
  { origin :=
      { x := a.origin.x + (if o.1 then (half : Int) else 0)
        y := a.origin.y + (if o.2.1 then (half : Int) else 0)
        z := a.origin.z + (if o.2.2 then (half : Int) else 0) }
    size := half }

/-- The octant index of a point `p` inside cube `a`: the upper-half flag per
axis, combined through the fixed bijection.  This is the "octant index of the
point relative to the current cube" of §6. -/
def pointOctant (a : Aabc) (p : V3) : Nat :=
  let half : Nat := a.size / 2
  octIdx (decide (p.x ≥ a.origin.x + (half : Int)))
    (decide (p.y ≥ a.origin.y + (half : Int)))
    (decide (p.z ≥ a.origin.z + (half : Int)))

/-- Modelled from the spec: `Aabc::new(origin, size)` is called by
`remove_leaf` but its definition is not among the provided source files; per
§3 a cube is exactly an origin corner plus an edge length, so it is the plain
constructor. -/
def Aabc.new (origin : V3) (size : Nat) : Aabc :=
  { origin := origin, size := size }

/-- `Aabc::expand_towards` including its panic guard. -/
def Aabc.expand_towards (a : Aabc) (t : V3) : Except Fault Aabc :=
  if a.contains t then .error .expandContained else .ok (a.expandCore t)

/-- `Aabc::shrink_towards` including its panic guard. -/
def Aabc.shrink_towards (a : Aabc) (t : V3) : Except Fault Aabc :=
  if !(a.contains t) then .error .shrinkOutside else .ok (a.shrinkCore t)

theorem Aabc.expand_towards_ok {a : Aabc} {t : V3} {b : Aabc}
    (h : a.expand_towards t = .ok b) : b = a.expandCore t ∧ a.contains t = false := by
  unfold Aabc.expand_towards at h
  by_cases hc : a.contains t
  · simp [hc] at h
  · simp [hc] at h
    exact ⟨h.symm, Bool.eq_false_iff.mpr hc⟩

theorem Aabc.shrink_towards_ok {a : Aabc} {t : V3} {b : Aabc}
    (h : a.shrink_towards t = .ok b) : b = a.shrinkCore t ∧ a.contains t = true := by
  unfold Aabc.shrink_towards at h
  by_cases hc : a.contains t
  · simp [hc] at h
    exact ⟨h.symm, hc⟩
  · simp [hc] at h

/-- sizeOf of a child retrieved from a slot list is smaller than sizeOf of
the node owning the list (for the well-founded recursions below). -/
theorem sizeOf_child_lt {T : Type} {cs : List (Option (Node T))} {i : Nat}
    {c : Node T} (h : cs.getD i none = some c) (a : Aabc) :
    sizeOf c < sizeOf (Node.Children a cs) := by
  have hm : some c ∈ cs := by
    rw [List.getD_eq_getElem?_getD] at h
    rcases hg : cs[i]? with _ | o
    · rw [hg] at h
      simp at h
    · rw [hg] at h
      simp at h
      subst h
      exact List.get?_mem (by rw [List.get?_eq_getElem?]; exact hg)
  have h1 : sizeOf (some c) < sizeOf cs := List.sizeOf_lt_of_mem hm
  simp only [Node.Children.sizeOf_spec]
  simp at h1
  omega

/-- The loop of `Node::count_children`: running slot index, count, candidate
index and `assigned` flag. -/
def countChildrenAux {T : Type} :
    List (Option (Node T)) → Nat → Nat × Option Nat × Bool → Nat × Option Nat × Bool
  | [], _, acc => acc
  | some _ :: rest, i, (n, _idx, assigned) =>
      countChildrenAux rest (i + 1) (n + 1, if assigned then none else some i, true)
  | none :: rest, i, acc => countChildrenAux rest (i + 1) acc

/-- `Node::count_children`: the number of present children, and — when
exactly one is present — its index. -/
def Node.count_children {T : Type} : Node T → Nat × Option Nat
  | .Value _ _ => (0, none)
  | .Children _ cs =>
      let r := countChildrenAux cs 0 (0, none, false)
      (r.1, r.2.1)

/-- `Node::add_child`: validate (inside the parent, exactly half the size,
octant found, slot free, not a leaf) in source order, then store the child at
its octant index; returns the updated parent and that index.  Every check
precedes the write, so the error case leaves the parent unchanged. -/
def Node.add_child {T : Type} (self : Node T) (child : Node T) :
    Except Fault (Node T × Nat) :=
  if !(self.aabc.contains child.aabc.origin) then .error .childOutsideParent
  else if self.aabc.size ≠ child.aabc.size * 2 then .error .parentSizeMismatch
  else
    match getOctantIdx self child.aabc with
    | .error f => .error f
    | .ok idx =>
      match self with
      | .Children a cs =>
        if (cs.getD idx none).isSome then .error .duplicateChild
        else .ok (.Children a (cs.set idx (some child)), idx)
      | .Value _ _ => .error .addToLeaf

theorem Node.add_child_ok_aabc {T : Type} {self child n1 : Node T} {i : Nat}
    (h : self.add_child child = .ok (n1, i)) : n1.aabc = self.aabc := by
  unfold Node.add_child at h
  split at h
  · cases h
  · split at h
    · cases h
    · split at h
      · cases h
      · split at h
        · split at h
          · cases h
          · cases h
            rfl
        · cases h

/-- `Node::add_down` specialised to the freshly created empty intermediate
that the `None` branch descends into.  The Rust code attaches an empty
`Children` node and recurses into it; every slot of that node is `None`, so
its recursion always takes the `None` branch again, which this function
implements directly (the cube size halves at each step). -/
def addDownFresh {T : Type} (a : Aabc) (leaf : Node T) : Except Fault (Node T) :=
  if hs : 2 < a.size then
    match getOctantIdx (Node.empty a.origin a.size : Node T) leaf.aabc with
    | .error f => .error f
    | .ok _ =>
      match hsh : Aabc.shrink_towards a leaf.aabc.origin with
      | .error f => .error f
      | .ok sh =>
        match Node.add_child (Node.empty a.origin a.size : Node T)
            (Node.empty sh.origin sh.size) with
        | .error f => .error f
        | .ok (self1, idx2) =>
          match addDownFresh sh leaf with
          | .error f => .error f
          | .ok c =>
            match self1 with
            | .Children a1 cs1 => .ok (.Children a1 (cs1.set idx2 (some c)))
            | .Value _ _ => .error .internal
  else
    match Node.add_child (Node.empty a.origin a.size : Node T) leaf with
    | .error f => .error f
    | .ok (self1, _) => .ok self1
termination_by a.size
decreasing_by
  obtain ⟨rfl, -⟩ := Aabc.shrink_towards_ok hsh
  simp [Aabc.shrinkCore]
  omega

/-- `Node::add_down`: descend to the size-2 level, creating empty
intermediates where the path is missing, and attach the leaf there. -/
def Node.add_down {T : Type} (self : Node T) (leaf : Node T) : Except Fault (Node T) :=
  if 2 < self.aabc.size then
    match getOctantIdx self leaf.aabc with
    | .error f => .error f
    | .ok idx =>
      match self with
      | .Children a cs =>
        match hc : cs.getD idx none with
        | some child =>
          match child.add_down leaf with
          | .error f => .error f
          | .ok c => .ok (.Children a (cs.set idx (some c)))
        | none =>
          match Aabc.shrink_towards a leaf.aabc.origin with
          | .error f => .error f
          | .ok sh =>
            match Node.add_child (.Children a cs) (Node.empty sh.origin sh.size) with
            | .error f => .error f
            | .ok (self1, idx2) =>
              match addDownFresh sh leaf with
              | .error f => .error f
              | .ok c =>
                match self1 with
                | .Children a1 cs1 => .ok (.Children a1 (cs1.set idx2 (some c)))
                | .Value _ _ => .error .internal
      | .Value _ _ => .error .internal
  else
    match self.add_child leaf with
    | .error f => .error f
    | .ok (self1, _) => .ok self1
termination_by sizeOf self
decreasing_by
  exact sizeOf_child_lt hc _

/-- `Node::remove_child`: locate and clear the slot holding the node whose
cube is exactly `target`; returns the updated node plus whether it now has
zero children (telling the caller to clear its own slot).  The error case
carries the node as observed at the panic point. -/
def Node.remove_child {T : Type} (self : Node T) (target : Aabc) :
    Except (Fault × Node T) (Node T × Bool) :=
  match getOctantIdx self target with
  | .error f => .error (f, self)
  | .ok idx =>
    match self with
    | .Children a cs =>
      match hc : cs.getD idx none with
      | some node =>
        if node.aabc = target then
          let self1 : Node T := .Children a (cs.set idx none)
          .ok (self1, self1.count_children.1 == 0)
        else
          match node.remove_child target with
          | .error (f, node1) => .error (f, .Children a (cs.set idx (some node1)))
          | .ok (node1, rm) =>
            let self1 : Node T :=
              .Children a (if rm then cs.set idx none else cs.set idx (some node1))
            .ok (self1, self1.count_children.1 == 0)
      | none => .error (.childNotFound, self)
    | .Value _ _ => .error (.removeFromValue, self)
termination_by sizeOf self
decreasing_by
  exact sizeOf_child_lt hc _

/-- The recursion of `Octree::shrink_root` on a present root: while the root
has exactly one remaining child, replace the root by that child.  The error
cases model the `i.unwrap()` panic and — were the single child slot `None` —
the "root is none" panic of the recursive call after the root was replaced by
`None`; each error carries the root as observed at the panic. -/
def shrinkRootNode {T : Type} (root : Node T) :
    Except (Fault × Option (Node T)) (Node T) :=
  let r := root.count_children
  match root with
  | .Value _ _ => .ok root
  | .Children _ cs =>
    if r.1 = 1 then
      match r.2 with
      | some i =>
        match hc : cs.getD i none with
        | some child => shrinkRootNode child
        | none => .error (.rootNone, none)
      | none => .error (.unwrapNone, some root)
    else .ok root
termination_by sizeOf root
decreasing_by
  exact sizeOf_child_lt hc _

mutual

/-- `Octree::get_size_recurse`: 8 cells per `Children` node, summed over the
subtree; `Value` leaves contribute nothing. -/
def getSizeRecurse {T : Type} : Node T → Nat
  | .Children _ cs => 8 + getSizeList cs
  | .Value _ _ => 0

/-- The child loop of `get_size_recurse`. -/
def getSizeList {T : Type} : List (Option (Node T)) → Nat
  | [] => 0
  | none :: rest => getSizeList rest
  | some c :: rest => getSizeRecurse c + getSizeList rest

end

/-- The size-2 arm of `serialize_recurse`: write each present leaf's value
(converted through `Into<i32>`) at its slot's cell; a `Children` child at
this level is the `unreachable!` arm. -/
def writeLeaves {T : Type} (into : T → Int) :
    Nat → List Int → List (Option (Node T)) → Except Fault (List Int)
  | _, arr, [] => .ok arr
  | pos, arr, none :: rest => writeLeaves into (pos + 1) arr rest
  | pos, arr, some (.Value _ d) :: rest => writeLeaves into (pos + 1) (arr.set pos (into d)) rest
  | _, _, some (.Children _ _) :: _ => .error .internal

mutual

/-- The large-size arm's child loop of `serialize_recurse`: write the running
cursor as the child's cell, then emit the child's subtree at the cursor. -/
def serializeChildren {T : Type} (into : T → Int) :
    Nat → Nat → List Int → List (Option (Node T)) → Except Fault (List Int × Nat)
  | _, start, arr, [] => .ok (arr, start)
  | pos, start, arr, none :: rest => serializeChildren into (pos + 1) start arr rest
  | pos, start, arr, some c :: rest =>
    match serializeRecurse into start (arr.set pos (start : Int)) c with
    | .error f => .error f
    | .ok (arr1, sz) => serializeChildren into (pos + 1) (start + sz) arr1 rest

/-- `Octree::serialize_recurse`: emit the 8-cell block of `curr` at `idx`
into `arr` and, depth-first, the blocks of its descendants; returns the
updated array and the number of cells the subtree occupies. -/
def serializeRecurse {T : Type} (into : T → Int) (idx : Nat) (arr : List Int) :
    Node T → Except Fault (List Int × Nat)
  | .Children a cs =>
    if a.size = 2 then
      match writeLeaves into idx arr cs with
      | .error f => .error f
      | .ok arr1 => .ok (arr1, (idx + 8) - idx)
    else
      match serializeChildren into idx (idx + 8) arr cs with
      | .error f => .error f
      | .ok (arr1, start1) => .ok (arr1, start1 - idx)
  | .Value _ _ => .error .singleLeafTree

end

/-- `pub struct Octree<T> { n_leaves: u32, root: Option<Box<Node<T>>> }`. -/
structure Octree (T : Type) where
  n_leaves : Nat
  root : Option (Node T)
deriving Repr

/-- `Octree::new`. -/
def Octree.new {T : Type} : Octree T :=
  { n_leaves := 0, root := none }

/-- `Octree::get_serialized_size`: 4 header cells plus the root's subtree, or
a single cell for the empty tree. -/
def Octree.get_serialized_size {T : Type} (t : Octree T) : Nat :=
  match t.root with
  | some r => 4 + getSizeRecurse r
  | none => 1

/-- `Octree::count_leaves`. -/
def Octree.count_leaves {T : Type} (t : Octree T) : Nat :=
  t.n_leaves

/-- `Octree::serialize`: allocate a zero array of the precomputed size; if a
root exists, write the 4-cell header `[size, x, y, z]` and then the root's
blocks starting at cell 4. -/
def Octree.serialize {T : Type} (into : T → Int) (t : Octree T) : Except Fault (List Int) :=
  let arr : List Int := List.replicate t.get_serialized_size 0
  match t.root with
  | some n =>
    let arr1 := (((arr.set 0 (n.aabc.size : Int)).set 1 n.aabc.origin.x).set 2
        n.aabc.origin.y).set 3 n.aabc.origin.z
    match serializeRecurse into 4 arr1 n with
    | .error f => .error f
    | .ok (arr2, _) => .ok arr2
  | none => .ok arr

/-- Per-axis deficiency of a cube with respect to a point, summed over the
axes: zero exactly when the cube contains the point.  Used as the termination
measure of the root-expansion loop. -/
def expandMeasure (a : Aabc) (p : V3) : Nat :=
  (a.origin.x - p.x).toNat + (p.x + 1 - (a.origin.x + (a.size : Int))).toNat +
  (a.origin.y - p.y).toNat + (p.y + 1 - (a.origin.y + (a.size : Int))).toNat +
  (a.origin.z - p.z).toNat + (p.z + 1 - (a.origin.z + (a.size : Int))).toNat

theorem expandMeasure_lt {a : Aabc} {p : V3} (hc : a.contains p = false)
    (hs : a.size ≠ 0) : expandMeasure (a.expandCore p) p < expandMeasure a p := by
  simp [Aabc.contains] at hc
  simp [expandMeasure, Aabc.expandCore]
  split_ifs <;> omega

/-- The root-expansion loop of `Octree::insert_leaf`: while the root cube
does not contain the new position, wrap the root as an octant of a doubled
cube expanded toward it.  A size-0 root cube would loop forever in Rust (no
such cube is ever constructed by the tree); that unreachable case is cut off
with the `divergent` marker. -/
def expandLoop {T : Type} (node : Node T) (pos : V3) : Except Fault (Node T) :=
  if node.aabc.contains pos then .ok node
  else if hs : node.aabc.size = 0 then .error .divergent
  else
    match hex : Aabc.expand_towards node.aabc pos with
    | .error f => .error f
    | .ok ex =>
      match hadd : Node.add_child (Node.empty ex.origin ex.size : Node T) node with
      | .error f => .error f
      | .ok (n1, _) => expandLoop n1 pos
termination_by expandMeasure node.aabc pos
decreasing_by
  obtain ⟨rfl, hcf⟩ := Aabc.expand_towards_ok hex
  have ha : n1.aabc = Aabc.expandCore node.aabc pos := by
    rw [Node.add_child_ok_aabc hadd]
    rfl
  rw [ha]
  exact expandMeasure_lt hcf hs

/-- `Octree::insert_leaf`: bump the leaf count, take the root out
(`mem::replace`), expand it until it contains the position, then descend and
attach the new leaf.  The root is detached before any fallible step, so at
any panic the observable octree has the incremented count and an empty root;
the error case carries that state. -/
def Octree.insert_leaf {T : Type} (t : Octree T) (data : T) (pos : V3) :
    Except (Fault × Octree T) (Octree T) :=
  let n1 := t.n_leaves + 1
  let leaf : Node T := Node.newLeaf data pos
  match t.root with
  | none => .ok { n_leaves := n1, root := some leaf }
  | some node =>
    match expandLoop node pos with
    | .error f => .error (f, { n_leaves := n1, root := none })
    | .ok node1 =>
      match node1.add_down leaf with
      | .error f => .error (f, { n_leaves := n1, root := none })
      | .ok node2 => .ok { n_leaves := n1, root := some node2 }

/-- `Octree::remove_leaf`: decrement the leaf count (u32 checked subtraction:
underflow on an empty octree is itself a panic), then clear the target leaf,
clear the root if it became childless, and run the root-shrink pass.  Error
cases carry the octree as observed at the panic point. -/
def Octree.remove_leaf {T : Type} (t : Octree T) (target : V3) :
    Except (Fault × Octree T) (Octree T) :=
  if t.n_leaves = 0 then .error (.subUnderflow, t)
  else
    let n1 := t.n_leaves - 1
    match t.root with
    | none => .error (.emptyTree, { n_leaves := n1, root := none })
    | some node =>
      let tgt := Aabc.new target 1
      if node.aabc = tgt then .ok { n_leaves := n1, root := none }
      else
        match node.remove_child tgt with
        | .error (f, node1) => .error (f, { n_leaves := n1, root := some node1 })
        | .ok (node1, rm) =>
          if rm then .ok { n_leaves := n1, root := none }
          else
            match shrinkRootNode node1 with
            | .error (f, r) => .error (f, { n_leaves := n1, root := r })
            | .ok node2 => .ok { n_leaves := n1, root := some node2 }

/-- Fold a list of `(value, position)` pairs through `insert_leaf`, starting
from the empty octree. -/
def buildTree {T : Type} (inserts : List (T × V3)) : Except (Fault × Octree T) (Octree T) :=
  inserts.foldlM (fun t vp => t.insert_leaf vp.1 vp.2) Octree.new

mutual

/-- Number of `Children` nodes in a subtree (the count the spec's §4.5 buffer
length formula refers to). -/
def nChildrenNodes {T : Type} : Node T → Nat
  | .Children _ cs => 1 + nChildrenList cs
  | .Value _ _ => 0

/-- `nChildrenNodes` summed over a slot list. -/
def nChildrenList {T : Type} : List (Option (Node T)) → Nat
  | [] => 0
  | none :: rest => nChildrenList rest
  | some c :: rest => nChildrenNodes c + nChildrenList rest

end

/-- Reference lookup on the tree: descend along the octant of `p` under the
fixed bijection; `none` when no leaf covers `p`. -/
def lookup {T : Type} (n : Node T) (p : V3) : Option T :=
  match n with
  | .Value a v => if a.origin = p then some v else none
  | .Children a cs =>
    if a.contains p then
      match hc : cs.getD (pointOctant a p) none with
      | some c => lookup c p
      | none => none
    else none
termination_by sizeOf n
decreasing_by
  exact sizeOf_child_lt hc _

/-- Octree-level lookup. -/
def lookupO {T : Type} (t : Octree T) (p : V3) : Option T :=
  match t.root with
  | some n => lookup n p
  | none => none

/-- The leaf payload at `p` as its serialized integer: the `Into<i32>` image
of the leaf value, `0` when no leaf covers `p`. -/
def lookupInt {T : Type} (into : T → Int) (n : Node T) (p : V3) : Int :=
  match lookup n p with
  | some v => into v
  | none => 0

/-- Structural well-formedness of every tree the Rust code can build: a
`Value` leaf has a unit cube; a `Children` node has a power-of-two cube of
size ≥ 2 and exactly 8 slots, and each present child occupies exactly the
sub-octant that the fixed bijection assigns to its slot index. -/
inductive WF {T : Type} : Node T → Prop where
  | value (a : Aabc) (v : T) (h1 : a.size = 1) : WF (.Value a v)
  | children (a : Aabc) (cs : List (Option (Node T)))
      (hpow : ∃ k, a.size = 2 ^ (k + 1))
      (hlen : cs.length = 8)
      (halign : ∀ i c, cs.getD i none = some c → c.aabc = octantCube a i)
      (hwfc : ∀ i c, cs.getD i none = some c → WF c) :
      WF (.Children a cs)

/-- Octree-level well-formedness. -/
def OctWF {T : Type} (t : Octree T) : Prop :=
  match t.root with
  | some n => WF n
  | none => True

/-- Modelled from the spec: the §6 consumer-side descent step (the decoding
shader is outside the provided source files).  `a` is the current cube and
`blockIdx` the first cell of its block; compute the octant index of the
point, read the cell; at a size-2 block the cell is the payload directly,
otherwise a zero cell means "empty region" and a nonzero cell is the absolute
index of the child's block, descending into the halved cube.  `fuel` bounds
the descent; the cube size halves each step, so `a.size` steps always
suffice. -/
def decodeAux (arr : List Int) : Nat → Aabc → Nat → V3 → Int
  | 0, _, _, _ => 0
  | fuel + 1, a, blockIdx, p =>
    let i := pointOctant a p
    let cell := arr.getD (blockIdx + i) 0
    if a.size = 2 then cell
    else if cell = 0 then 0
    else decodeAux arr fuel (octantCube a i) cell.toNat p

/-- Modelled from the spec: §6 top level — read the root cube from the
4-cell header `[size, x, y, z]`, then descend from the block at cell 4. -/
def decode (arr : List Int) (p : V3) : Int :=
  match arr with
  | size :: x :: y :: z :: _ =>
    decodeAux arr size.toNat { origin := { x := x, y := y, z := z }, size := size.toNat } 4 p
  | _ => 0

mutual

/-- The block layout of a serialized subtree: the absolute start cell of the
8-cell block of each `Children` node, paired with that node, in emission
order.  Mirrors the cursor discipline of `serialize_recurse`. -/
def blocksOf {T : Type} : Node T → Nat → List (Nat × Node T)
  | .Children a cs, idx =>
    (idx, .Children a cs) ::
      (if a.size = 2 then [] else blocksChildren cs (idx + 8))
  | .Value _ _, _ => []

/-- Blocks contributed by a slot list starting at cursor `start`. -/
def blocksChildren {T : Type} : List (Option (Node T)) → Nat → List (Nat × Node T)
  | [], _ => []
  | none :: rest, start => blocksChildren rest start
  | some c :: rest, start => blocksOf c start ++ blocksChildren rest (start + getSizeRecurse c)

end

/-- `pruneLeafList into cs`: the slot list of a size-2 node with every leaf
whose payload converts to `0` removed. -/
def pruneLeafList {T : Type} (into : T → Int) : List (Option (Node T)) → List (Option (Node T))
  | [] => []
  | none :: rest => none :: pruneLeafList into rest
  | some (.Value a v) :: rest =>
      (if into v = 0 then none else some (.Value a v)) :: pruneLeafList into rest
  | some (.Children a cs) :: rest => some (.Children a cs) :: pruneLeafList into rest

mutual

/-- The tree with every leaf whose payload converts to `0` removed from its
size-2 parent (claim C10 compares its serialization with the original's). -/
def pruneZeros {T : Type} (into : T → Int) : Node T → Node T
  | .Children a cs =>
    if a.size = 2 then .Children a (pruneLeafList into cs)
    else .Children a (pruneChildList into cs)
  | .Value a v => .Value a v

/-- `pruneZeros` mapped over a slot list. -/
def pruneChildList {T : Type} (into : T → Int) : List (Option (Node T)) → List (Option (Node T))
  | [] => []
  | none :: rest => none :: pruneChildList into rest
  | some c :: rest => some (pruneZeros into c) :: pruneChildList into rest

end

/-- `arr2` agrees with `arr1` on every cell index in `[lo, hi)`. -/
def Agrees (lo hi : Nat) (arr2 arr1 : List Int) : Prop :=
  ∀ j, lo ≤ j → j < hi → arr2.getD j 0 = arr1.getD j 0

/-- §6 decoding of the block of `c` at cell `b` of `arr2` agrees with the
tree lookup, for every point of `c`'s cube and any sufficient fuel. -/
def DecodeOK {T : Type} (into : T → Int) (c : Node T) (b : Nat) (arr2 : List Int) : Prop :=
  ∀ p, c.aabc.contains p = true → ∀ fuel, c.aabc.size ≤ fuel →
    decodeAux arr2 fuel c.aabc b p = lookupInt into c p

/-- Every cell of every listed block that belongs to a node of cube size > 2
is either `0` or an absolute index at least 8 past the block's start. -/
def BlocksCellsOK {T : Type} (bs : List (Nat × Node T)) (arr2 : List Int) : Prop :=
  ∀ bm, bm ∈ bs → ∀ i, i < 8 → 2 < (bm.2 : Node T).aabc.size →
    arr2.getD (bm.1 + i) 0 = 0 ∨ ((bm.1 : Int) + 8 ≤ arr2.getD (bm.1 + i) 0)

/-- Full specification of one `serialize_recurse` call on the subtree `c`:
on a sufficiently long array whose target region is zeroed, it succeeds,
returns the region size, preserves the length, writes nothing outside the
region, and the written region decodes back to the tree's leaves (and its
blocks' offset cells all point strictly forward), robustly under any later
writes outside the region. -/
def SRSpec {T : Type} (into : T → Int) (c : Node T) : Prop :=
  ∀ idx arr, idx + getSizeRecurse c ≤ arr.length →
    (∀ j, idx ≤ j → j < idx + getSizeRecurse c → arr.getD j 0 = 0) →
    ∃ arr1, serializeRecurse into idx arr c = .ok (arr1, getSizeRecurse c) ∧
      arr1.length = arr.length ∧
      (∀ j, j < idx ∨ idx + getSizeRecurse c ≤ j → arr1.getD j 0 = arr.getD j 0) ∧
      (∀ arr2, Agrees idx (idx + getSizeRecurse c) arr2 arr1 →
        DecodeOK into c idx arr2 ∧ BlocksCellsOK (blocksOf c idx) arr2) ∧
      serializeRecurse into idx arr (pruneZeros into c) =
        serializeRecurse into idx arr c

/-! ## Octant bijection basics -/

theorem octantOffs_octIdx (b1 b2 b3 : Bool) : octantOffs (octIdx b1 b2 b3) = (b1, b2, b3) := by
  cases b1 <;> cases b2 <;> cases b3 <;> rfl

theorem octIdx_lt (b1 b2 b3 : Bool) : octIdx b1 b2 b3 < 8 := by
  cases b1 <;> cases b2 <;> cases b3 <;> decide

theorem octIdx_octantOffs (i : Nat) (h : i < 8) :
    octIdx (octantOffs i).1 (octantOffs i).2.1 (octantOffs i).2.2 = i := by
  interval_cases i <;> rfl

theorem pointOctant_lt (a : Aabc) (p : V3) : pointOctant a p < 8 :=
  octIdx_lt _ _ _

/-! ## Claim C6: `expand_towards` -/

/-- Claim C6 as stated is false at a concrete input: expanding the unit cube
at the origin toward `(2,0,0)` yields the size-2 cube at the origin, which
does not contain `(2,0,0)` (a single expansion only moves toward the target;
containment can take several). -/
theorem expand_towards_counterexample :
    (∃ k, (({ origin := { x := 0, y := 0, z := 0 }, size := 1 } : Aabc)).size = 2 ^ k) ∧
    Aabc.contains { origin := { x := 0, y := 0, z := 0 }, size := 1 } { x := 2, y := 0, z := 0 } = false ∧
    Aabc.expand_towards { origin := { x := 0, y := 0, z := 0 }, size := 1 } { x := 2, y := 0, z := 0 } =
      .ok { origin := { x := 0, y := 0, z := 0 }, size := 2 } ∧
    Aabc.contains { origin := { x := 0, y := 0, z := 0 }, size := 2 } { x := 2, y := 0, z := 0 } = false :=
  ⟨⟨0, rfl⟩, rfl, rfl, rfl⟩

/-- Claim C6 (amended): for every cube of power-of-two size and every point
`t` not contained in it, `expand_towards t` succeeds and yields a cube of
double the size that contains the original cube as one of its 8 sub-octants
(`t` itself need not be contained after a single expansion). -/
theorem expand_towards_spec (a : Aabc) (t : V3) (hpow : ∃ k, a.size = 2 ^ k)
    (hc : a.contains t = false) :
    ∃ b, a.expand_towards t = .ok b ∧ b.size = 2 * a.size ∧
      ∃ i, i < 8 ∧ octantCube b i = a := by
  clear hpow
  refine ⟨a.expandCore t, by simp [Aabc.expand_towards, hc], by simp [Aabc.expandCore]; ring, ?_⟩
  refine ⟨octIdx (decide (t.x < a.origin.x)) (decide (t.y < a.origin.y))
      (decide (t.z < a.origin.z)), octIdx_lt _ _ _, ?_⟩
  unfold octantCube Aabc.expandCore
  rw [octantOffs_octIdx]
  rcases a with ⟨⟨ox, oy, oz⟩, s⟩
  by_cases h1 : t.x < ox <;> by_cases h2 : t.y < oy <;> by_cases h3 : t.z < oz <;>
    simp [h1, h2, h3, Aabc.mk.injEq, V3.mk.injEq] <;> omega

/-- The hypotheses of the amended C6 are satisfiable and its conclusion
computes as stated on the counterexample input. -/
theorem expand_towards_spec_witness :
    (∃ k, (({ origin := { x := 0, y := 0, z := 0 }, size := 1 } : Aabc)).size = 2 ^ k) ∧
    Aabc.contains { origin := { x := 0, y := 0, z := 0 }, size := 1 } { x := 2, y := 0, z := 0 } = false ∧
    ∃ b, Aabc.expand_towards { origin := { x := 0, y := 0, z := 0 }, size := 1 }
        { x := 2, y := 0, z := 0 } = .ok b ∧ b.size = 2 * 1 ∧ ∃ i, i < 8 ∧ octantCube b i =
        { origin := { x := 0, y := 0, z := 0 }, size := 1 } :=
  ⟨⟨0, rfl⟩, rfl, expand_towards_spec _ _ ⟨0, rfl⟩ rfl⟩

/-! ## Claim C7: `shrink_towards` -/

/-- Claim C7 as stated is false at a concrete input: the unit cube has
power-of-two size and contains its origin, but shrinking toward the origin
yields the size-0 cube (`1 / 2 = 0` in `u32` division), which contains
nothing — in particular not `t`. -/
theorem shrink_towards_counterexample :
    (∃ k, (({ origin := { x := 0, y := 0, z := 0 }, size := 1 } : Aabc)).size = 2 ^ k) ∧
    Aabc.contains { origin := { x := 0, y := 0, z := 0 }, size := 1 } { x := 0, y := 0, z := 0 } = true ∧
    Aabc.shrink_towards { origin := { x := 0, y := 0, z := 0 }, size := 1 } { x := 0, y := 0, z := 0 } =
      .ok { origin := { x := 0, y := 0, z := 0 }, size := 0 } ∧
    Aabc.contains { origin := { x := 0, y := 0, z := 0 }, size := 0 } { x := 0, y := 0, z := 0 } = false :=
  ⟨⟨0, rfl⟩, rfl, rfl, rfl⟩

/-- Claim C7 (amended): for every cube of power-of-two size **at least 2**
and every point `t` contained in it, `shrink_towards t` succeeds and yields a
cube of half the size that contains `t` and is contained in the original
(the size-1 cube, excluded here, shrinks to an empty size-0 cube). -/
theorem shrink_towards_spec (a : Aabc) (t : V3) (hpow : ∃ k, a.size = 2 ^ (k + 1))
    (hc : a.contains t = true) :
    ∃ b, a.shrink_towards t = .ok b ∧ b.size = a.size / 2 ∧ b.contains t = true ∧
      a.contains_aabc b = true := by
  obtain ⟨k, hk⟩ := hpow
  have h2k : 1 ≤ 2 ^ k := Nat.one_le_two_pow
  have hev : a.size = 2 * (a.size / 2) ∧ 1 ≤ a.size / 2 := by
    have hp : (2 : Nat) ^ (k + 1) = 2 * 2 ^ k := by ring
    rw [hk, hp]
    omega
  obtain ⟨he, hh⟩ := hev
  refine ⟨a.shrinkCore t, by simp [Aabc.shrink_towards, hc], rfl, ?_, ?_⟩
  · rcases a with ⟨⟨ox, oy, oz⟩, s⟩
    replace he : s = 2 * (s / 2) := he
    replace hh : 1 ≤ s / 2 := hh
    simp only [Aabc.contains, Aabc.shrinkCore] at hc ⊢
    simp only [Bool.and_eq_true, Bool.not_eq_true', decide_eq_false_iff_not, not_lt,
      not_le, decide_eq_true_eq] at hc ⊢
    simp only [ge_iff_le] at hc ⊢
    split_ifs <;> omega
  · rcases a with ⟨⟨ox, oy, oz⟩, s⟩
    replace he : s = 2 * (s / 2) := he
    replace hh : 1 ≤ s / 2 := hh
    simp only [Aabc.contains, Aabc.shrinkCore, Aabc.contains_aabc] at hc ⊢
    simp only [Bool.and_eq_true, Bool.not_eq_true', decide_eq_false_iff_not, not_lt,
      not_le, decide_eq_true_eq, gt_iff_lt] at hc ⊢
    simp only [ge_iff_le] at hc ⊢
    split_ifs <;> omega

/-- The hypotheses of the amended C7 are satisfiable and its conclusion
computes as stated on a concrete input. -/
theorem shrink_towards_spec_witness :
    (∃ k, (({ origin := { x := 0, y := 0, z := 0 }, size := 4 } : Aabc)).size = 2 ^ (k + 1)) ∧
    Aabc.contains { origin := { x := 0, y := 0, z := 0 }, size := 4 } { x := 2, y := 2, z := 2 } = true ∧
    ∃ b, Aabc.shrink_towards { origin := { x := 0, y := 0, z := 0 }, size := 4 }
        { x := 2, y := 2, z := 2 } = .ok b ∧ b.size = 4 / 2 ∧
        b.contains { x := 2, y := 2, z := 2 } = true ∧
        Aabc.contains_aabc { origin := { x := 0, y := 0, z := 0 }, size := 4 } b = true :=
  ⟨⟨1, rfl⟩, rfl, shrink_towards_spec _ _ ⟨1, rfl⟩ rfl⟩

/-! ## List cell helpers -/

theorem getD_set_ne {α : Type} (l : List α) (i j : Nat) (x d : α) (h : i ≠ j) :
    (l.set i x).getD j d = l.getD j d := by
  rw [List.getD_eq_getElem?_getD, List.getD_eq_getElem?_getD, List.getElem?_set_ne h]

theorem getD_set_self {α : Type} (l : List α) (i : Nat) (x d : α) (h : i < l.length) :
    (l.set i x).getD i d = x := by
  rw [List.getD_eq_getElem?_getD, List.getElem?_set_self h]
  rfl

theorem sizeOf_child_lt_of_mem {T : Type} {cs : List (Option (Node T))} {c : Node T}
    (h : some c ∈ cs) (a : Aabc) : sizeOf c < sizeOf (Node.Children a cs) := by
  have h1 := List.sizeOf_lt_of_mem h
  simp only [Node.Children.sizeOf_spec]
  simp at h1
  omega

theorem mem_of_getD {T : Type} {cs : List (Option (Node T))} {i : Nat} {c : Node T}
    (h : cs.getD i none = some c) : some c ∈ cs := by
  rw [List.getD_eq_getElem?_getD] at h
  rcases hg : cs[i]? with _ | o
  · rw [hg] at h
    simp at h
  · rw [hg] at h
    simp at h
    subst h
    exact List.get?_mem (by rw [List.get?_eq_getElem?]; exact hg)

/-! ## Claim C8: serialized buffer length -/

theorem getSizeList_eq_aux {T : Type} (cs : List (Option (Node T)))
    (IH : ∀ c, some c ∈ cs → getSizeRecurse c = 8 * nChildrenNodes c) :
    getSizeList cs = 8 * nChildrenList cs := by
  induction cs with
  | nil => simp [getSizeList, nChildrenList]
  | cons hd tl ih =>
    match hd with
    | none =>
      rw [getSizeList, nChildrenList]
      exact ih fun c hc => IH c (List.mem_cons_of_mem _ hc)
    | some c =>
      rw [getSizeList, nChildrenList]
      rw [IH c (List.mem_cons_self _ _), ih fun c2 hc => IH c2 (List.mem_cons_of_mem _ hc)]
      ring

theorem getSizeRecurse_eq_mul {T : Type} (n : Node T) :
    getSizeRecurse n = 8 * nChildrenNodes n := by
  match n with
  | .Value a v => rw [getSizeRecurse, nChildrenNodes]
  | .Children a cs =>
    rw [getSizeRecurse, nChildrenNodes]
    rw [getSizeList_eq_aux cs fun c hc => getSizeRecurse_eq_mul c]
    ring
termination_by sizeOf n
decreasing_by
  exact sizeOf_child_lt_of_mem hc a

theorem writeLeaves_spec {T : Type} (into : T → Int) :
    ∀ (cs : List (Option (Node T))) (pos : Nat) (arr arr1 : List Int),
    writeLeaves into pos arr cs = .ok arr1 →
    arr1.length = arr.length ∧ getSizeList cs = 0 ∧
    (∀ j, j < pos ∨ pos + cs.length ≤ j → arr1.getD j 0 = arr.getD j 0) ∧
    (∀ i, i < cs.length →
      (cs.getD i none = none → arr1.getD (pos + i) 0 = arr.getD (pos + i) 0) ∧
      (∀ a v, cs.getD i none = some (.Value a v) → pos + i < arr.length →
        arr1.getD (pos + i) 0 = into v)) := by
  intro cs
  induction cs with
  | nil =>
    intro pos arr arr1 h
    rw [writeLeaves] at h
    cases h
    refine ⟨rfl, rfl, fun j hj => rfl, fun i hi => by simp at hi⟩
  | cons hd tl ih =>
    intro pos arr arr1 h
    match hd with
    | none =>
      rw [writeLeaves] at h
      obtain ⟨hlen, hsz, hframe, hcells⟩ := ih (pos + 1) arr arr1 h
      refine ⟨hlen, by rw [getSizeList]; exact hsz, ?_, ?_⟩
      · intro j hj
        refine hframe j ?_
        simp only [List.length_cons] at hj
        omega
      · intro i hi
        match i with
        | 0 =>
          constructor
          · intro _
            refine hframe pos (by omega)
          · intro a v hv
            simp at hv
        | i + 1 =>
          simp only [List.length_cons] at hi
          have := hcells i (by omega)
          constructor
          · intro hnone
            have h2 := this.1 (by simpa using hnone)
            rw [show pos + (i + 1) = pos + 1 + i by omega]
            exact h2
          · intro a v hv hb
            have h2 := this.2 a v (by simpa using hv) (by omega)
            rw [show pos + (i + 1) = pos + 1 + i by omega]
            exact h2
    | some (.Value a0 v0) =>
      rw [writeLeaves] at h
      obtain ⟨hlen, hsz, hframe, hcells⟩ := ih (pos + 1) (arr.set pos (into v0)) arr1 h
      rw [List.length_set] at hlen
      refine ⟨hlen, by rw [getSizeList, getSizeRecurse]; omega, ?_, ?_⟩
      · intro j hj
        simp only [List.length_cons] at hj
        rw [hframe j (by omega), getD_set_ne _ _ _ _ _ (by omega)]
      · intro i hi
        match i with
        | 0 =>
          constructor
          · intro hnone
            simp at hnone
          · intro a v hv hb
            simp only [List.getD_cons_zero] at hv
            cases hv
            rw [Nat.add_zero, hframe pos (by omega), getD_set_self _ _ _ _ (by omega)]
        | i + 1 =>
          simp only [List.length_cons] at hi
          have hthis := hcells i (by omega)
          constructor
          · intro hnone
            have h2 := hthis.1 (by simpa using hnone)
            have hrw : pos + (i + 1) = pos + 1 + i := by omega
            rw [hrw, h2, getD_set_ne _ _ _ _ _ (by omega)]
          · intro a v hv hb
            have h2 := hthis.2 a v (by simpa using hv) (by simp [List.length_set]; omega)
            have hrw : pos + (i + 1) = pos + 1 + i := by omega
            rw [hrw, h2]
    | some (.Children a0 cs0) =>
      rw [writeLeaves] at h
      cases h

theorem serializeChildren_ok_aux {T : Type} (into : T → Int) (cs : List (Option (Node T)))
    (IH : ∀ c, some c ∈ cs → ∀ idx arr arr1 sz,
      serializeRecurse into idx arr c = .ok (arr1, sz) →
      arr1.length = arr.length ∧ sz = getSizeRecurse c) :
    ∀ pos start arr arr1 start1,
      serializeChildren into pos start arr cs = .ok (arr1, start1) →
      arr1.length = arr.length ∧ start1 = start + getSizeList cs := by
  induction cs with
  | nil =>
    intro pos start arr arr1 start1 h
    rw [serializeChildren] at h
    cases h
    exact ⟨rfl, by rw [getSizeList]; omega⟩
  | cons hd tl ih =>
    intro pos start arr arr1 start1 h
    match hd with
    | none =>
      rw [serializeChildren] at h
      obtain ⟨h1, h2⟩ := ih (fun c hc => IH c (List.mem_cons_of_mem _ hc)) _ _ _ _ _ h
      exact ⟨h1, by rw [getSizeList]; exact h2⟩
    | some c =>
      rw [serializeChildren] at h
      rcases hr : serializeRecurse into start (arr.set pos (start : Int)) c with f | ⟨arrc, sz⟩
      · rw [hr] at h
        cases h
      · rw [hr] at h
        obtain ⟨hl1, hsz⟩ := IH c (List.mem_cons_self _ _) _ _ _ _ hr
        obtain ⟨hl2, hs2⟩ := ih (fun c2 hc => IH c2 (List.mem_cons_of_mem _ hc)) _ _ _ _ _ h
        refine ⟨by rw [hl2, hl1, List.length_set], ?_⟩
        rw [getSizeList, hs2, hsz]
        omega

theorem serializeRecurse_ok {T : Type} (into : T → Int) (n : Node T) :
    ∀ idx arr arr1 sz, serializeRecurse into idx arr n = .ok (arr1, sz) →
      arr1.length = arr.length ∧ sz = getSizeRecurse n := by
  match n with
  | .Value a v =>
    intro idx arr arr1 sz h
    rw [serializeRecurse] at h
    cases h
  | .Children a cs =>
    intro idx arr arr1 sz h
    rw [serializeRecurse] at h
    by_cases h2 : a.size = 2
    · rw [if_pos h2] at h
      rcases hw : writeLeaves into idx arr cs with f | arrw
      · rw [hw] at h
        cases h
      · rw [hw] at h
        obtain ⟨hlen, hsz, -, -⟩ := writeLeaves_spec into cs idx arr arrw hw
        cases h
        rw [getSizeRecurse, hsz]
        exact ⟨hlen, by omega⟩
    · rw [if_neg h2] at h
      rcases hs : serializeChildren into idx (idx + 8) arr cs with f | ⟨arrc, start1⟩
      · rw [hs] at h
        cases h
      · rw [hs] at h
        obtain ⟨hlen, hst⟩ := serializeChildren_ok_aux into cs
          (fun c hc => serializeRecurse_ok into c) _ _ _ _ _ hs
        cases h
        rw [getSizeRecurse]
        exact ⟨hlen, by omega⟩
termination_by sizeOf n
decreasing_by
  exact sizeOf_child_lt_of_mem hc a

/-- Claim C8: the buffer returned by `serialize` has length 1 (`[0]`) for the
empty tree, and length `4 + 8 × (number of Children nodes)` when the root is
a `Children` node. -/
theorem serialize_length {T : Type} (into : T → Int) (t : Octree T) :
    (t.root = none → Octree.serialize into t = .ok [0]) ∧
    (∀ n, t.root = some n → (∃ a cs, n = Node.Children a cs) →
      ∀ arr, Octree.serialize into t = .ok arr →
        arr.length = 4 + 8 * nChildrenNodes n) := by
  constructor
  · intro hroot
    rw [Octree.serialize, Octree.get_serialized_size, hroot]
    rfl
  · intro n hroot hch arr h
    simp only [Octree.serialize, Octree.get_serialized_size, hroot] at h
    split at h
    · cases h
    · next arr2 sz hs =>
      cases h
      obtain ⟨hlen, -⟩ := serializeRecurse_ok into n _ _ _ _ hs
      rw [hlen]
      simp [List.length_set, List.length_replicate]
      rw [getSizeRecurse_eq_mul]

/-- The C8 theorem applied at the empty octree and at a concrete two-leaf
octree (the tree of the repository's `insert_two_leaves` test). -/
theorem serialize_length_witness :
    ((Octree.new : Octree Int).root = none →
      Octree.serialize id (Octree.new : Octree Int) = .ok [0]) ∧
    (∀ n, (⟨2, some (.Children ⟨⟨0,0,0⟩,2⟩ [none,none,none,none,none,
        some (.Value ⟨⟨1,0,0⟩,1⟩ 2), some (.Value ⟨⟨0,0,0⟩,1⟩ 1), none])⟩ :
          Octree Int).root = some n →
      (∃ a cs, n = Node.Children a cs) →
      ∀ arr, Octree.serialize id (⟨2, some (.Children ⟨⟨0,0,0⟩,2⟩ [none,none,none,none,none,
        some (.Value ⟨⟨1,0,0⟩,1⟩ 2), some (.Value ⟨⟨0,0,0⟩,1⟩ 1), none])⟩ :
          Octree Int) = .ok arr →
        arr.length = 4 + 8 * nChildrenNodes n) :=
  ⟨(serialize_length id Octree.new).1,
   (serialize_length id ⟨2, some (.Children ⟨⟨0,0,0⟩,2⟩ [none,none,none,none,none,
      some (.Value ⟨⟨1,0,0⟩,1⟩ 2), some (.Value ⟨⟨0,0,0⟩,1⟩ 1), none])⟩).2⟩

/-! ## Claim C5: the root-shrink pass -/

theorem shrinkRootNode_post {T : Type} (root r : Node T)
    (h : shrinkRootNode root = .ok r) :
    (∃ a v, r = .Value a v) ∨ r.count_children.1 ≠ 1 := by
  match root with
  | .Value a v =>
    simp only [shrinkRootNode] at h
    cases h
    exact .inl ⟨a, v, rfl⟩
  | .Children a cs =>
    simp only [shrinkRootNode] at h
    by_cases h1 : (Node.Children a cs).count_children.1 = 1
    · rw [if_pos h1] at h
      rcases h2 : (Node.Children a cs).count_children.2 with _ | i
      · rw [h2] at h
        cases h
      · rw [h2] at h
        simp only [] at h
        split at h
        · rename_i child h3
          exact shrinkRootNode_post child r h
        · cases h
    · rw [if_neg h1] at h
      cases h
      exact .inr h1
termination_by sizeOf root
decreasing_by
  exact sizeOf_child_lt (by assumption) _

/-- Claim C5: after every successful `remove_leaf` that leaves a nonempty
tree, the root-shrink pass has run, so the final root is either a `Value`
leaf or a `Children` node whose child count is different from one. -/
theorem remove_leaf_root_not_single {T : Type} (t t1 : Octree T) (p : V3) (n : Node T)
    (h : t.remove_leaf p = .ok t1) (hroot : t1.root = some n) :
    (∃ a v, n = .Value a v) ∨ n.count_children.1 ≠ 1 := by
  simp only [Octree.remove_leaf] at h
  by_cases h0 : t.n_leaves = 0
  · rw [if_pos h0] at h
    cases h
  · rw [if_neg h0] at h
    rcases ht : t.root with _ | node
    · rw [ht] at h
      cases h
    · rw [ht] at h
      simp only [] at h
      by_cases heq : node.aabc = Aabc.new p 1
      · rw [if_pos heq] at h
        cases h
        simp at hroot
      · rw [if_neg heq] at h
        rcases hrc : node.remove_child (Aabc.new p 1) with ⟨f, node1⟩ | ⟨node1, rm⟩
        · rw [hrc] at h
          cases h
        · rw [hrc] at h
          simp only [] at h
          by_cases hrm : rm = true
          · rw [if_pos hrm] at h
            cases h
            simp at hroot
          · rw [if_neg hrm] at h
            rcases hsr : shrinkRootNode node1 with ⟨f, r0⟩ | node2
            · rw [hsr] at h
              cases h
            · rw [hsr] at h
              simp only [] at h
              cases h
              have hn : node2 = n := by simpa using hroot
              exact hn ▸ shrinkRootNode_post node1 node2 hsr

/-- C5's theorem applied at a concrete input: removing `(0,0,0)` from the
two-leaf tree holding `(0,0,0)` and `(1,1,1)` succeeds, and the resulting
root (the collapsed `(1,1,1)` leaf) is a `Value` node. -/
theorem remove_leaf_root_not_single_witness :
    (⟨2, some (.Children ⟨⟨0,0,0⟩,2⟩ [some (.Value ⟨⟨1,1,1⟩,1⟩ 0), none, none, none, none,
        none, some (.Value ⟨⟨0,0,0⟩,1⟩ 0), none])⟩ : Octree Int).remove_leaf ⟨0,0,0⟩ =
      .ok ⟨1, some (.Value ⟨⟨1,1,1⟩,1⟩ 0)⟩ ∧
    ((∃ a v, (Node.Value ⟨⟨1,1,1⟩,1⟩ (0 : Int)) = Node.Value a v) ∨
      (Node.Value ⟨⟨1,1,1⟩,1⟩ (0 : Int)).count_children.1 ≠ 1) := by
  have h : (⟨2, some (.Children ⟨⟨0,0,0⟩,2⟩ [some (.Value ⟨⟨1,1,1⟩,1⟩ 0), none, none, none,
      none, none, some (.Value ⟨⟨0,0,0⟩,1⟩ 0), none])⟩ : Octree Int).remove_leaf ⟨0,0,0⟩ =
      .ok ⟨1, some (.Value ⟨⟨1,1,1⟩,1⟩ 0)⟩ := by
    simp [Octree.remove_leaf, Node.remove_child, getOctantIdx, octantContains,
      Aabc.contains_aabc, Aabc.new, Node.count_children, countChildrenAux, shrinkRootNode,
      Node.aabc]
  exact ⟨h, remove_leaf_root_not_single _ _ ⟨0,0,0⟩ _ h rfl⟩

/-! ## Octant index machinery -/

theorem octantContains_unique {o1 o2 o3 p1 p2 p3 : Bool} {t par : Aabc}
    (hts : 1 ≤ t.size)
    (h : octantContains o1 o2 o3 t par = true)
    (h2 : octantContains p1 p2 p3 t par = true) :
    o1 = p1 ∧ o2 = p2 ∧ o3 = p3 := by
  simp only [octantContains, Aabc.contains_aabc, Bool.and_eq_true, Bool.not_eq_true',
    decide_eq_false_iff_not, not_lt, not_le, gt_iff_lt] at h h2
  cases o1 <;> cases p1 <;> cases o2 <;> cases p2 <;> cases o3 <;> cases p3 <;>
    simp only [Bool.false_eq_true, if_true, if_false] at h h2 <;>
    first
    | exact ⟨rfl, rfl, rfl⟩
    | (exfalso; omega)

theorem getOctantIdx_eq {T : Type} (n : Node T) (t : Aabc) (o1 o2 o3 : Bool)
    (hts : 1 ≤ t.size) (h : octantContains o1 o2 o3 t n.aabc = true) :
    getOctantIdx n t = .ok (octIdx o1 o2 o3) := by
  have hu : ∀ p1 p2 p3, octantContains p1 p2 p3 t n.aabc = true →
      p1 = o1 ∧ p2 = o2 ∧ p3 = o3 := fun p1 p2 p3 h2 =>
    octantContains_unique hts h2 h
  unfold getOctantIdx
  split_ifs with hA hB hC hD hE hF hG hH
  · obtain ⟨e1, e2, e3⟩ := hu false false false hA
    subst e1
    subst e2
    subst e3
    rfl
  · obtain ⟨e1, e2, e3⟩ := hu true false false hB
    subst e1
    subst e2
    subst e3
    rfl
  · obtain ⟨e1, e2, e3⟩ := hu false true false hC
    subst e1
    subst e2
    subst e3
    rfl
  · obtain ⟨e1, e2, e3⟩ := hu true true false hD
    subst e1
    subst e2
    subst e3
    rfl
  · obtain ⟨e1, e2, e3⟩ := hu false false true hE
    subst e1
    subst e2
    subst e3
    rfl
  · obtain ⟨e1, e2, e3⟩ := hu true false true hF
    subst e1
    subst e2
    subst e3
    rfl
  · obtain ⟨e1, e2, e3⟩ := hu false true true hG
    subst e1
    subst e2
    subst e3
    rfl
  · obtain ⟨e1, e2, e3⟩ := hu true true true hH
    subst e1
    subst e2
    subst e3
    rfl
  · exfalso
    cases o1 <;> cases o2 <;> cases o3
    · exact hA h
    · exact hE h
    · exact hC h
    · exact hG h
    · exact hB h
    · exact hF h
    · exact hD h
    · exact hH h

theorem octantContains_octantCube (par : Aabc) (i : Nat) (hi : i < 8) :
    octantContains (octantOffs i).1 (octantOffs i).2.1 (octantOffs i).2.2
      (octantCube par i) par = true := by
  have hgen : ∀ b1 b2 b3 : Bool, octantContains b1 b2 b3
      (octantCube par (octIdx b1 b2 b3)) par = true := by
    intro b1 b2 b3
    simp only [octantContains, octantCube, octantOffs_octIdx, Aabc.contains_aabc,
      Bool.and_eq_true, Bool.not_eq_true', decide_eq_false_iff_not, not_lt, not_le,
      gt_iff_lt]
    cases b1 <;> cases b2 <;> cases b3 <;> simp only [Bool.false_eq_true, if_true, if_false] <;> omega
  have h2 := hgen (octantOffs i).1 (octantOffs i).2.1 (octantOffs i).2.2
  rw [octIdx_octantOffs i hi] at h2
  exact h2

theorem getOctantIdx_octantCube {T : Type} (n : Node T) (i : Nat) (hi : i < 8)
    (hs : 1 ≤ n.aabc.size / 2) :
    getOctantIdx n (octantCube n.aabc i) = .ok i := by
  have h := octantContains_octantCube n.aabc i hi
  have h2 := getOctantIdx_eq n (octantCube n.aabc i) _ _ _ hs h
  rw [h2, octIdx_octantOffs i hi]

theorem octantContains_point (par : Aabc) (p : V3) (h : par.contains p = true)
    (hev : par.size = 2 * (par.size / 2)) :
    octantContains (decide (p.x ≥ par.origin.x + ((par.size / 2 : Nat) : Int)))
      (decide (p.y ≥ par.origin.y + ((par.size / 2 : Nat) : Int)))
      (decide (p.z ≥ par.origin.z + ((par.size / 2 : Nat) : Int)))
      { origin := p, size := 1 } par = true := by
  simp only [Aabc.contains, Bool.and_eq_true, Bool.not_eq_true',
    decide_eq_false_iff_not, not_lt, not_le, ge_iff_le] at h
  simp only [octantContains, Aabc.contains_aabc, Bool.and_eq_true, Bool.not_eq_true',
    decide_eq_false_iff_not, not_lt, not_le, gt_iff_lt, ge_iff_le, decide_eq_true_eq]
  split_ifs <;> omega

theorem getOctantIdx_point {T : Type} (n : Node T) (p : V3)
    (h : n.aabc.contains p = true) (hev : n.aabc.size = 2 * (n.aabc.size / 2)) :
    getOctantIdx n { origin := p, size := 1 } = .ok (pointOctant n.aabc p) :=
  getOctantIdx_eq n _ _ _ _ (le_refl 1) (octantContains_point n.aabc p h hev)

theorem octantCube_pointOctant_contains (a : Aabc) (p : V3) (h : a.contains p = true)
    (hev : a.size = 2 * (a.size / 2)) :
    (octantCube a (pointOctant a p)).contains p = true := by
  simp only [Aabc.contains, Bool.and_eq_true, Bool.not_eq_true',
    decide_eq_false_iff_not, not_lt, not_le, ge_iff_le] at h
  simp only [octantCube, pointOctant, octantOffs_octIdx, Aabc.contains,
    Bool.and_eq_true, Bool.not_eq_true', decide_eq_false_iff_not, not_lt, not_le,
    ge_iff_le, decide_eq_true_eq]
  split_ifs <;> omega

theorem contains_of_octantCube (a : Aabc) (p : V3) (i : Nat)
    (hev : a.size = 2 * (a.size / 2))
    (h : (octantCube a i).contains p = true) : a.contains p = true := by
  rcases hoffs : octantOffs i with ⟨b1, b2, b3⟩
  simp only [octantCube, hoffs, Aabc.contains, Bool.and_eq_true, Bool.not_eq_true',
    decide_eq_false_iff_not, not_lt, not_le, ge_iff_le] at h ⊢
  cases b1 <;> cases b2 <;> cases b3 <;> simp only [Bool.false_eq_true, if_true, if_false] at h <;> omega

theorem octantContains_offs_of_contains (a : Aabc) (p : V3) (i : Nat)
    (hev : a.size = 2 * (a.size / 2))
    (h : (octantCube a i).contains p = true) :
    octantContains (octantOffs i).1 (octantOffs i).2.1 (octantOffs i).2.2
      { origin := p, size := 1 } a = true := by
  rcases hoffs : octantOffs i with ⟨b1, b2, b3⟩
  simp only [octantCube, hoffs, Aabc.contains, Bool.and_eq_true, Bool.not_eq_true',
    decide_eq_false_iff_not, not_lt, not_le, ge_iff_le] at h
  simp only [octantContains, hoffs, Aabc.contains_aabc, Bool.and_eq_true,
    Bool.not_eq_true', decide_eq_false_iff_not, not_lt, not_le, gt_iff_lt, ge_iff_le]
  cases b1 <;> cases b2 <;> cases b3 <;> simp only [Bool.false_eq_true, if_true, if_false] at h ⊢ <;> omega

theorem pointOctant_eq_of_contains (a : Aabc) (p : V3) (i : Nat) (hi : i < 8)
    (hev : a.size = 2 * (a.size / 2))
    (h : (octantCube a i).contains p = true) : pointOctant a p = i := by
  have hcp := contains_of_octantCube a p i hev h
  have hp := octantContains_point a p hcp hev
  have hb := octantContains_offs_of_contains a p i hev h
  obtain ⟨e1, e2, e3⟩ := octantContains_unique (le_refl 1) hp hb
  have h4 : pointOctant a p = octIdx (octantOffs i).1 (octantOffs i).2.1
      (octantOffs i).2.2 := by
    simp only [pointOctant]
    rw [e1, e2, e3]
  rw [h4, octIdx_octantOffs i hi]

/-! ## Well-formedness and lookup helpers -/

theorem WF_size_pos {T : Type} {n : Node T} (h : WF n) : 1 ≤ n.aabc.size := by
  cases h with
  | value a v h1 => simp [Node.aabc, h1]
  | children a cs hpow hlen halign hwfc =>
    obtain ⟨k, hk⟩ := hpow
    simp only [Node.aabc, hk]
    exact Nat.one_le_two_pow

theorem WF_children_even {T : Type} {a : Aabc} {cs : List (Option (Node T))}
    (h : WF (.Children a cs)) : a.size = 2 * (a.size / 2) ∧ 1 ≤ a.size / 2 := by
  cases h with
  | children a cs hpow hlen halign hwfc =>
    obtain ⟨k, hk⟩ := hpow
    have hp : (2 : Nat) ^ (k + 1) = 2 * 2 ^ k := by ring
    have h2k : 1 ≤ 2 ^ k := Nat.one_le_two_pow
    rw [hk, hp]
    omega

theorem WF_children_of_size {T : Type} {n : Node T} (h : WF n) (h2 : 2 ≤ n.aabc.size) :
    ∃ a cs, n = Node.Children a cs := by
  cases h with
  | value a v h1 => simp [Node.aabc, h1] at h2
  | children a cs hpow hlen halign hwfc => exact ⟨a, cs, rfl⟩

theorem contains_unit_iff (a : Aabc) (q : V3) (h1 : a.size = 1) :
    a.contains q = true ↔ a.origin = q := by
  rcases a with ⟨⟨ox, oy, oz⟩, s⟩
  rcases q with ⟨qx, qy, qz⟩
  simp only at h1
  subst h1
  simp only [Aabc.contains, Bool.and_eq_true, Bool.not_eq_true',
    decide_eq_false_iff_not, not_lt, not_le, V3.mk.injEq]
  constructor
  · intro hh
    obtain ⟨⟨⟨⟨⟨k1, k2⟩, k3⟩, k4⟩, k5⟩, k6⟩ := hh
    refine ⟨by omega, by omega, by omega⟩
  · rintro ⟨hx, hy, hz⟩
    subst hx
    subst hy
    subst hz
    refine ⟨⟨⟨⟨⟨by omega, by omega⟩, by omega⟩, by omega⟩, by omega⟩, by omega⟩

theorem lookup_Value {T : Type} (a : Aabc) (v : T) (p : V3) :
    lookup (.Value a v) p = if a.origin = p then some v else none := by
  rw [lookup]

theorem lookup_Children_out {T : Type} (a : Aabc) (cs : List (Option (Node T))) (p : V3)
    (hc : a.contains p = false) : lookup (.Children a cs) p = none := by
  rw [lookup, if_neg (by simp [hc])]

theorem lookup_Children_some {T : Type} (a : Aabc) (cs : List (Option (Node T))) (p : V3)
    (c : Node T) (hcont : a.contains p = true)
    (hc : cs.getD (pointOctant a p) none = some c) :
    lookup (.Children a cs) p = lookup c p := by
  rw [lookup, if_pos (by simp [hcont])]
  split
  · next c2 heq =>
    rw [heq] at hc
    cases hc
    rfl
  · next heq =>
    rw [heq] at hc
    cases hc

theorem lookup_Children_none {T : Type} (a : Aabc) (cs : List (Option (Node T))) (p : V3)
    (hcont : a.contains p = true)
    (hc : cs.getD (pointOctant a p) none = none) :
    lookup (.Children a cs) p = none := by
  rw [lookup, if_pos (by simp [hcont])]
  split
  · next c2 heq =>
    rw [heq] at hc
    cases hc
  · next heq => rfl

theorem lookup_none_of_not_contains {T : Type} {n : Node T} {q : V3}
    (hwf : WF n) (h : n.aabc.contains q = false) : lookup n q = none := by
  cases hwf with
  | value a v h1 =>
    rw [lookup_Value]
    rw [if_neg]
    intro heq
    simp only [Node.aabc] at h
    rw [(contains_unit_iff a q h1).mpr heq] at h
    cases h
  | children a cs hpow hlen halign hwfc =>
    simp only [Node.aabc] at h
    exact lookup_Children_out a cs q h

theorem lookup_some_contains {T : Type} {n : Node T} {q : V3} {v : T}
    (hwf : WF n) (h : lookup n q = some v) : n.aabc.contains q = true := by
  rcases hc : n.aabc.contains q with _ | _
  · rw [lookup_none_of_not_contains hwf hc] at h
    cases h
  · rfl

theorem getD_none8 {T : Type} (j : Nat) :
    ([none, none, none, none, none, none, none, none] : List (Option (Node T))).getD
      j none = none := by
  rcases j with _|_|_|_|_|_|_|_|j <;> rfl

theorem Node.empty_aabc {T : Type} (o : V3) (s : Nat) :
    (Node.empty o s : Node T).aabc = { origin := o, size := s } := rfl

/-! ## `add_child` and `getOctantIdx` inversion -/

theorem getOctantIdx_ok_inv {T : Type} {n : Node T} {t : Aabc} {i : Nat}
    (h : getOctantIdx n t = .ok i) :
    ∃ o1 o2 o3, i = octIdx o1 o2 o3 ∧ octantContains o1 o2 o3 t n.aabc = true := by
  unfold getOctantIdx at h
  split_ifs at h with hA hB hC hD hE hF hG hH <;> cases h
  · exact ⟨false, false, false, rfl, hA⟩
  · exact ⟨true, false, false, rfl, hB⟩
  · exact ⟨false, true, false, rfl, hC⟩
  · exact ⟨true, true, false, rfl, hD⟩
  · exact ⟨false, false, true, rfl, hE⟩
  · exact ⟨true, false, true, rfl, hF⟩
  · exact ⟨false, true, true, rfl, hG⟩
  · exact ⟨true, true, true, rfl, hH⟩

theorem add_child_ok {T : Type} {self child n1 : Node T} {i : Nat}
    (h : self.add_child child = .ok (n1, i)) :
    ∃ a cs, self = .Children a cs ∧
      a.contains child.aabc.origin = true ∧
      a.size = child.aabc.size * 2 ∧
      getOctantIdx self child.aabc = .ok i ∧
      cs.getD i none = none ∧
      n1 = .Children a (cs.set i (some child)) := by
  rcases self with ⟨a, cs⟩ | ⟨a, v⟩
  · unfold Node.add_child at h
    rcases hcont : (Node.Children a cs).aabc.contains child.aabc.origin with _ | _
    · rw [if_pos (by simp [hcont])] at h
      cases h
    · rw [if_neg (by simp [hcont])] at h
      by_cases hsz : (Node.Children a cs : Node T).aabc.size = child.aabc.size * 2
      · rw [if_neg (by omega)] at h
        rcases hidx : getOctantIdx (Node.Children a cs) child.aabc with f | j
        · simp only [hidx] at h
          cases h
        · simp only [hidx] at h
          rcases hslot : (cs.getD j none).isSome with _ | _
          · have hslotn : cs.getD j none = none := by
              rcases hs2 : cs.getD j none with _ | c
              · rfl
              · rw [hs2] at hslot
                cases hslot
            rw [if_neg (by rw [hslot]; exact Bool.false_ne_true)] at h
            cases h
            exact ⟨a, cs, rfl, hcont, hsz, rfl, hslotn, rfl⟩
          · rw [if_pos hslot] at h
            cases h
      · rw [if_pos hsz] at h
        cases h
  · unfold Node.add_child at h
    rcases hcont : (Node.Value a v : Node T).aabc.contains child.aabc.origin with _ | _
    · rw [if_pos (by simp [hcont])] at h
      cases h
    · rw [if_neg (by simp [hcont])] at h
      by_cases hsz : (Node.Value a v : Node T).aabc.size = child.aabc.size * 2
      · rw [if_neg (by omega)] at h
        rcases hidx : getOctantIdx (Node.Value a v) child.aabc with f | j <;>
          simp only [hidx] at h <;> cases h
      · rw [if_pos hsz] at h
        cases h

theorem add_child_align {T : Type} {self child n1 : Node T} {i : Nat}
    (h : self.add_child child = .ok (n1, i)) (hsz1 : 1 ≤ child.aabc.size) :
    child.aabc = octantCube self.aabc i ∧ i < 8 := by
  obtain ⟨a, cs, hself, hcont, hsize, hidx, hslot, hn1⟩ := add_child_ok h
  subst hself
  obtain ⟨o1, o2, o3, hi, hoc⟩ := getOctantIdx_ok_inv hidx
  subst hi
  refine ⟨?_, octIdx_lt o1 o2 o3⟩
  have hoc2 : octantContains o1 o2 o3 child.aabc a = true := hoc
  have hhalf : a.size / 2 = child.aabc.size := by omega
  show child.aabc = octantCube a (octIdx o1 o2 o3)
  rcases hca : child.aabc with ⟨⟨cx, cy, cz⟩, csz⟩
  rw [hca] at hoc2 hhalf
  simp only [octantContains, Aabc.contains_aabc, Bool.and_eq_true, Bool.not_eq_true',
    decide_eq_false_iff_not, not_lt, not_le, gt_iff_lt] at hoc2
  simp only [octantCube, octantOffs_octIdx]
  simp only at hoc2 hhalf
  cases o1 <;> cases o2 <;> cases o3 <;>
    simp only [Bool.false_eq_true, if_true, if_false] at hoc2 ⊢ <;>
    (rw [Aabc.mk.injEq, V3.mk.injEq]; exact ⟨⟨by omega, by omega, by omega⟩, by omega⟩)

theorem shrinkCore_eq_octantCube (a : Aabc) (p : V3) :
    a.shrinkCore p = octantCube a (pointOctant a p) := by
  simp only [Aabc.shrinkCore, octantCube, pointOctant, octantOffs_octIdx,
    decide_eq_true_eq, ge_iff_le]
  rw [Aabc.mk.injEq, V3.mk.injEq]
  refine ⟨⟨?_, ?_, ?_⟩, rfl⟩ <;> split_ifs <;> omega

/-! ## Root expansion preserves the stored leaves -/

theorem WF_size_pow {T : Type} {n : Node T} (h : WF n) : ∃ k, n.aabc.size = 2 ^ k := by
  cases h with
  | value a v h1 => exact ⟨0, by simp [Node.aabc, h1]⟩
  | children a cs hpow hlen halign hwfc =>
    obtain ⟨k, hk⟩ := hpow
    exact ⟨k + 1, hk⟩

theorem pow_succ_halves (k : Nat) :
    (2 : Nat) ^ (k + 1) = 2 * (2 ^ (k + 1) / 2) ∧ 1 ≤ 2 ^ (k + 1) / 2 := by
  have hp : (2 : Nat) ^ (k + 1) = 2 * 2 ^ k := by ring
  have h2k : 1 ≤ (2 : Nat) ^ k := Nat.one_le_two_pow
  rw [hp]
  omega

/-- Wrapping an existing root as the sole child of a fresh doubled cube (one
step of the expansion loop) preserves well-formedness and every lookup. -/
theorem wrap_root_spec {T : Type} {n nn : Node T} {ex : Aabc} {i : Nat}
    (hwf : WF n) (hpow : ∃ k, ex.size = 2 ^ (k + 1))
    (hadd : (Node.empty ex.origin ex.size : Node T).add_child n = .ok (nn, i)) :
    WF nn ∧ nn.aabc = ex ∧ ∀ q, lookup nn q = lookup n q := by
  obtain ⟨a0, cs0, hself, hcont, hsize, hidx, hslot, hn1⟩ := add_child_ok hadd
  have hsz1 : 1 ≤ n.aabc.size := WF_size_pos hwf
  obtain ⟨halignn, hilt⟩ := add_child_align hadd hsz1
  rw [Node.empty] at hself
  injection hself with h8a h8b
  have hexa : ex = a0 := by rw [← h8a]
  subst hexa
  subst h8b
  subst hn1
  have hev : ex.size = 2 * (ex.size / 2) ∧ 1 ≤ ex.size / 2 := by
    obtain ⟨k, hk⟩ := hpow
    rw [hk]
    exact pow_succ_halves k
  have haabc : (Node.Children { origin := ex.origin, size := ex.size }
      (([none, none, none, none, none, none, none, none] :
        List (Option (Node T))).set i (some n)) : Node T).aabc = ex := rfl
  have halign2 : n.aabc = octantCube ex i := by
    rw [halignn]
    rfl
  refine ⟨?_, haabc, ?_⟩
  · refine WF.children _ _ ?_ (by simp [List.length_set]) ?_ ?_
    · obtain ⟨k, hk⟩ := hpow
      exact ⟨k, hk⟩
    · intro j c hj
      by_cases hji : j = i
      · subst hji
        rw [getD_set_self _ _ _ _ (by simpa using hilt)] at hj
        cases hj
        rw [halign2]
      · rw [getD_set_ne _ _ _ _ _ (fun he => hji he.symm), getD_none8] at hj
        cases hj
    · intro j c hj
      by_cases hji : j = i
      · subst hji
        rw [getD_set_self _ _ _ _ (by simpa using hilt)] at hj
        cases hj
        exact hwf
      · rw [getD_set_ne _ _ _ _ _ (fun he => hji he.symm), getD_none8] at hj
        cases hj
  · intro q
    rcases hq : ex.contains q with _ | _
    · rw [lookup_Children_out _ _ _ (by exact hq)]
      refine (lookup_none_of_not_contains hwf ?_).symm
      rcases hq2 : n.aabc.contains q with _ | _
      · rfl
      · exfalso
        rw [halign2] at hq2
        rw [contains_of_octantCube ex q i hev.1 hq2] at hq
        cases hq
    · rcases hq2 : n.aabc.contains q with _ | _
      · have hjne : pointOctant ex q ≠ i := by
          intro hji
          have hin := octantCube_pointOctant_contains ex q hq hev.1
          rw [hji, ← halign2, hq2] at hin
          cases hin
        rw [lookup_Children_none _ _ _ hq
            (by rw [getD_set_ne _ _ _ _ _ (fun he => hjne he.symm), getD_none8])]
        exact (lookup_none_of_not_contains hwf hq2).symm
      · have hji : pointOctant ex q = i := by
          refine pointOctant_eq_of_contains ex q i hilt hev.1 ?_
          rw [← halign2]
          exact hq2
        rw [lookup_Children_some _ _ _ n hq
            (by rw [hji, getD_set_self _ _ _ _ (by simpa using hilt)])]

/-- The root-expansion loop preserves well-formedness and every lookup, and
its result contains the target position. -/
theorem expandLoop_ok {T : Type} (n : Node T) (p : V3) :
    ∀ n1, WF n → expandLoop n p = .ok n1 →
      WF n1 ∧ n1.aabc.contains p = true ∧ ∀ q, lookup n1 q = lookup n q := by
  induction n, p using expandLoop.induct with
  | case1 node pos hc =>
    intro n1 hwf h
    rw [expandLoop, if_pos hc] at h
    cases h
    exact ⟨hwf, hc, fun q => rfl⟩
  | case2 node pos hc hs0 =>
    intro n1 hwf h
    exfalso
    have := WF_size_pos hwf
    omega
  | case3 node pos hc hs0 f hex =>
    intro n1 hwf h
    exfalso
    unfold Aabc.expand_towards at hex
    rcases hcc : node.aabc.contains pos with _ | _
    · rw [if_neg (by simp [hcc])] at hex
      cases hex
    · exact hc hcc
  | case4 node pos hc hs0 sh hex f hadd =>
    intro n1 hwf h
    rw [expandLoop, if_neg hc, dif_neg hs0] at h
    split at h
    · cases h
    · next ex heq =>
      rw [hex] at heq
      cases heq
      split at h
      · cases h
      · next nn i heq2 =>
        rw [hadd] at heq2
        cases heq2
  | case5 node pos hc hs0 sh hex nn i hadd ih =>
    intro n1 hwf h
    rw [expandLoop, if_neg hc, dif_neg hs0] at h
    have hpowsh : ∃ k, sh.size = 2 ^ (k + 1) := by
      obtain ⟨hsheq, -⟩ := Aabc.expand_towards_ok hex
      obtain ⟨k, hk⟩ := WF_size_pow hwf
      refine ⟨k, ?_⟩
      rw [hsheq]
      simp only [Aabc.expandCore]
      rw [hk]
      ring
    obtain ⟨hwfnn, haabcnn, hlknn⟩ := wrap_root_spec hwf hpowsh hadd
    split at h
    · next f heq =>
      rw [hex] at heq
      cases heq
    · next ex heq =>
      rw [hex] at heq
      cases heq
      split at h
      · next f heq2 =>
        rw [hadd] at heq2
        cases heq2
      · next nn2 i2 heq2 =>
        rw [hadd] at heq2
        injection heq2 with heq3
        injection heq3 with heq4 heq5
        subst heq4
        obtain ⟨hwf1, hc1, hlk1⟩ := ih n1 hwfnn h
        exact ⟨hwf1, hc1, fun q => (hlk1 q).trans (hlknn q)⟩

/-! ## Updating one child slot -/

theorem WF_set_slot {T : Type} {a : Aabc} {cs : List (Option (Node T))} {i0 : Nat}
    {c : Node T} (hwf : WF (.Children a cs)) (hi8 : i0 < 8)
    (hca : c.aabc = octantCube a i0) (hwfc : WF c) :
    WF (.Children a (cs.set i0 (some c))) := by
  cases hwf with
  | children a cs hpow hlen halign hwfc2 =>
    refine WF.children _ _ hpow (by rw [List.length_set]; exact hlen) ?_ ?_
    · intro j c2 hj
      by_cases hji : j = i0
      · subst hji
        rw [getD_set_self _ _ _ _ (by omega)] at hj
        cases hj
        exact hca
      · rw [getD_set_ne _ _ _ _ _ (fun he => hji he.symm)] at hj
        exact halign j c2 hj
    · intro j c2 hj
      by_cases hji : j = i0
      · subst hji
        rw [getD_set_self _ _ _ _ (by omega)] at hj
        cases hj
        exact hwfc
      · rw [getD_set_ne _ _ _ _ _ (fun he => hji he.symm)] at hj
        exact hwfc2 j c2 hj

theorem lookup_set_slot {T : Type} {a : Aabc} {cs : List (Option (Node T))} {i0 : Nat}
    {c : Node T} (hlen : cs.length = 8) (hi8 : i0 < 8) :
    ∀ q, lookup (.Children a (cs.set i0 (some c))) q =
      if a.contains q = true ∧ pointOctant a q = i0 then lookup c q
      else lookup (.Children a cs) q := by
  intro q
  rcases hq : a.contains q with _ | _
  · rw [lookup_Children_out _ _ _ hq, if_neg (by simp [hq]),
      lookup_Children_out _ _ _ hq]
  · by_cases hj : pointOctant a q = i0
    · rw [if_pos ⟨rfl, hj⟩]
      exact lookup_Children_some _ _ _ c hq
        (by rw [hj, getD_set_self _ _ _ _ (by omega)])
    · rw [if_neg (by intro hand; exact hj hand.2)]
      rcases hs2 : cs.getD (pointOctant a q) none with _ | ch
      · rw [lookup_Children_none _ _ _ hq
          (by rw [getD_set_ne _ _ _ _ _ (fun he => hj he.symm)]; exact hs2),
          lookup_Children_none _ _ _ hq hs2]
      · rw [lookup_Children_some _ _ _ ch hq
          (by rw [getD_set_ne _ _ _ _ _ (fun he => hj he.symm)]; exact hs2),
          lookup_Children_some _ _ _ ch hq hs2]

theorem lookup_children_nones {T : Type} (a : Aabc) (q : V3) :
    lookup (.Children a ([none, none, none, none, none, none, none, none] :
      List (Option (Node T)))) q = none := by
  rcases hq : a.contains q with _ | _
  · exact lookup_Children_out _ _ _ hq
  · exact lookup_Children_none _ _ _ hq (getD_none8 _)

theorem WF_children_nones {T : Type} (a : Aabc) (hpow : ∃ k, a.size = 2 ^ (k + 1)) :
    WF (.Children a ([none, none, none, none, none, none, none, none] :
      List (Option (Node T)))) := by
  refine WF.children _ _ hpow rfl ?_ ?_ <;>
    (intro j c hj; rw [getD_none8] at hj; cases hj)

theorem pow_even {s : Nat} (hpow : ∃ k, s = 2 ^ (k + 1)) :
    s = 2 * (s / 2) ∧ 1 ≤ s / 2 := by
  obtain ⟨k, hk⟩ := hpow
  rw [hk]
  exact pow_succ_halves k

theorem lookup_newLeaf {T : Type} (d : T) (p q : V3) :
    lookup (Node.newLeaf d p : Node T) q = if q = p then some d else none := by
  rw [Node.newLeaf, lookup_Value]
  by_cases h : q = p
  · subst h
    rw [if_pos rfl]
  · rw [if_neg (fun he => h he.symm), if_neg h]

/-- Specification of the fresh-chain descent of `add_down`: on a power-of-two
cube of size ≥ 2 containing the position, a successful `addDownFresh`
produces a well-formed subtree over the same cube whose only stored leaf is
the newly inserted one. -/
theorem addDownFresh_ok {T : Type} (a : Aabc) (leaf : Node T) :
    ∀ n2 (d : T) (p : V3), leaf = Node.newLeaf d p →
      (∃ k, a.size = 2 ^ (k + 1)) → a.contains p = true →
      addDownFresh a leaf = .ok n2 →
      WF n2 ∧ n2.aabc = a ∧ ∀ q, lookup n2 q = if q = p then some d else none := by
  induction a, leaf using addDownFresh.induct with
  | case1 a leaf hs f herr =>
    intro n2 d p hleaf hpow hcont h
    exfalso
    subst hleaf
    have hev := pow_even hpow
    have hidx0 : getOctantIdx (Node.empty a.origin a.size : Node T)
        { origin := p, size := 1 } = .ok (pointOctant a p) :=
      getOctantIdx_point _ p hcont hev.1
    have herr2 : getOctantIdx (Node.empty a.origin a.size : Node T)
        { origin := p, size := 1 } = .error f := herr
    rw [hidx0] at herr2
    cases herr2
  | case2 a leaf hs idx hidx f herr =>
    intro n2 d p hleaf hpow hcont h
    exfalso
    subst hleaf
    have herr2 : a.shrink_towards p = .error f := herr
    unfold Aabc.shrink_towards at herr2
    rw [hcont] at herr2
    simp at herr2
  | case3 a leaf hs idx hidx sh hsh f herr =>
    intro n2 d p hleaf hpow hcont h
    rw [addDownFresh, dif_pos hs] at h
    split at h
    · cases h
    · split at h
      · next f2 heq =>
        rw [hsh] at heq
        cases heq
      · next sh2 heq =>
        rw [hsh] at heq
        cases heq
        split at h
        · cases h
        · next self1 idx2 heq2 =>
          rw [herr] at heq2
          cases heq2
  | case4 a leaf hs idx hidx sh hsh self1 idx2 hadd f herr ih =>
    intro n2 d p hleaf hpow hcont h
    rw [addDownFresh, dif_pos hs] at h
    split at h
    · cases h
    · split at h
      · next f2 heq =>
        rw [hsh] at heq
        cases heq
      · next sh2 heq =>
        rw [hsh] at heq
        cases heq
        split at h
        · cases h
        · next self2 idx3 heq2 =>
          split at h
          · cases h
          · next c heq3 =>
            rw [herr] at heq3
            cases heq3
  | case5 a leaf hs idx hidx sh hsh idx2 c hrec a1 a2 hadd ih =>
    intro n2 d p hleaf hpow hcont h
    subst hleaf
    have hev := pow_even hpow
    have hidx0 : getOctantIdx (Node.empty a.origin a.size : Node T)
        { origin := p, size := 1 } = .ok (pointOctant a p) :=
      getOctantIdx_point _ p hcont hev.1
    have hsh2 : a.shrink_towards p = .ok sh := hsh
    obtain ⟨hshc, -⟩ := Aabc.shrink_towards_ok hsh2
    have hshoct : sh = octantCube a (pointOctant a p) := by
      rw [hshc, shrinkCore_eq_octantCube]
    obtain ⟨a0, cs0, hself0, hcont0, hsize0, hidx3, hslot0, hres⟩ := add_child_ok hadd
    rw [Node.empty] at hself0
    injection hself0 with h8a h8b
    have hexa : a = a0 := by rw [← h8a]
    subst hexa
    subst h8b
    have hocteq : getOctantIdx (Node.empty a.origin a.size : Node T)
        (octantCube a (pointOctant a p)) = .ok (pointOctant a p) :=
      getOctantIdx_octantCube _ _ (pointOctant_lt a p) hev.2
    have hidx5 : getOctantIdx (Node.empty a.origin a.size : Node T) sh = .ok idx2 := hidx3
    rw [hshoct, hocteq] at hidx5
    injection hidx5 with hi2
    subst hi2
    injection hres with hra hrb
    obtain rfl := hra.symm
    subst hrb
    have hpowsh : ∃ k2, sh.size = 2 ^ (k2 + 1) := by
      obtain ⟨k, hk⟩ := hpow
      match k with
      | 0 =>
        rw [hk] at hs
        omega
      | k + 1 =>
        refine ⟨k, ?_⟩
        have hsz : sh.size = a.size / 2 := by rw [hshoct]; rfl
        have hp1 : (2 : Nat) ^ (k + 1 + 1) = 2 * 2 ^ (k + 1) := by ring
        rw [hsz, hk, hp1]
        omega
    have hcontsh : sh.contains p = true := by
      rw [hshoct]
      exact octantCube_pointOctant_contains a p hcont hev.1
    obtain ⟨hwfc, hcaabc, hlkc⟩ := ih c d p rfl hpowsh hcontsh hrec
    rw [addDownFresh, dif_pos hs] at h
    split at h
    · cases h
    · split at h
      · next f2 heq =>
        rw [hsh] at heq
        cases heq
      · next sh2 heq =>
        rw [hsh] at heq
        cases heq
        split at h
        · cases h
        · next self2 idx3 heq2 =>
          rw [hadd] at heq2
          injection heq2 with heq3
          injection heq3 with heq4 heq5
          subst heq4
          subst heq5
          split at h
          · cases h
          · next c2 heq6 =>
            rw [hrec] at heq6
            cases heq6
            cases h
            rw [List.set_set]
            refine ⟨?_, rfl, ?_⟩
            · refine WF_set_slot (WF_children_nones a hpow) (pointOctant_lt a p)
                ?_ hwfc
              rw [hcaabc, hshoct]
            · intro q
              have hset := lookup_set_slot (a := a) (c := c)
                (show ([none, none, none, none, none, none, none, none] :
                  List (Option (Node T))).length = 8 from rfl)
                (pointOctant_lt a p)
              rw [hset q]
              by_cases hqp : q = p
              · subst hqp
                rw [if_pos ⟨hcont, rfl⟩, hlkc]
              · by_cases hcq : a.contains q = true ∧ pointOctant a q = pointOctant a p
                · rw [if_pos hcq, hlkc q]
                · rw [if_neg hcq, lookup_children_nones, if_neg hqp]
  | case6 a leaf hs idx hidx sh hsh idx2 c hrec a1 a2 hadd ih =>
    intro n2 d p hleaf hpow hcont h
    exfalso
    obtain ⟨a0, cs0, hself0, hcont0, hsize0, hidx3, hslot0, hres⟩ := add_child_ok hadd
    exact Node.noConfusion hres
  | case7 a leaf hs f herr =>
    intro n2 d p hleaf hpow hcont h
    rw [addDownFresh, dif_neg hs] at h
    split at h
    · cases h
    · next self1 idx2 heq =>
      rw [herr] at heq
      cases heq
  | case8 a leaf hs self1 idx2 hadd =>
    intro n2 d p hleaf hpow hcont h
    subst hleaf
    have hev := pow_even hpow
    obtain ⟨a0, cs0, hself0, hcont0, hsize0, hidx3, hslot0, hres⟩ := add_child_ok hadd
    rw [Node.empty] at hself0
    injection hself0 with h8a h8b
    have hexa : a = a0 := by rw [← h8a]
    subst hexa
    subst h8b
    have hidx4 : getOctantIdx (Node.empty a.origin a.size : Node T)
        { origin := p, size := 1 } = .ok idx2 := hidx3
    have hidx0 : getOctantIdx (Node.empty a.origin a.size : Node T)
        { origin := p, size := 1 } = .ok (pointOctant a p) :=
      getOctantIdx_point _ p hcont hev.1
    rw [hidx0] at hidx4
    injection hidx4 with hi2
    subst hi2
    have halignl : (Node.newLeaf d p : Node T).aabc =
        octantCube a (pointOctant a p) :=
      (add_child_align hadd (le_refl 1)).1
    rw [addDownFresh, dif_neg hs] at h
    split at h
    · cases h
    · next self2 idx3 heq =>
      rw [hadd] at heq
      injection heq with heq2
      injection heq2 with heq3 heq4
      subst heq3
      cases h
      subst hres
      refine ⟨?_, rfl, ?_⟩
      · exact WF_set_slot (WF_children_nones a hpow) (pointOctant_lt a p) halignl
          (WF.value _ _ rfl)
      · intro q
        have hset := lookup_set_slot (a := a) (c := Node.newLeaf d p)
          (show ([none, none, none, none, none, none, none, none] :
            List (Option (Node T))).length = 8 from rfl)
          (pointOctant_lt a p)
        rw [hset q]
        by_cases hqp : q = p
        · subst hqp
          rw [if_pos ⟨hcont, rfl⟩, lookup_newLeaf]
        · by_cases hcq : a.contains q = true ∧ pointOctant a q = pointOctant a p
          · rw [if_pos hcq, lookup_newLeaf]
          · rw [if_neg hcq, lookup_children_nones, if_neg hqp]

theorem WF_children_inv {T : Type} {a : Aabc} {cs : List (Option (Node T))}
    (h : WF (.Children a cs)) :
    (∃ k, a.size = 2 ^ (k + 1)) ∧ cs.length = 8 ∧
      (∀ i c, cs.getD i none = some c → c.aabc = octantCube a i) ∧
      (∀ i c, cs.getD i none = some c → WF c) := by
  cases h with
  | children a cs hpow hlen halign hwfc => exact ⟨hpow, hlen, halign, hwfc⟩

/-- Specification of `Node::add_down` on a well-formed node containing the
target position: success yields a well-formed node over the same cube that
stores the new leaf at its position and leaves every other position
unchanged; moreover success is only possible when the position was
previously empty (the `duplicate_child` check). -/
theorem add_down_ok {T : Type} (self leaf : Node T) :
    ∀ n2 (d : T) (p : V3), leaf = Node.newLeaf d p → WF self →
      self.aabc.contains p = true → self.add_down leaf = .ok n2 →
      WF n2 ∧ n2.aabc = self.aabc ∧
        (∀ q, lookup n2 q = if q = p then some d else lookup self q) ∧
        lookup self p = none := by
  induction self, leaf using Node.add_down.induct with
  | case1 self leaf h2 f herr =>
    intro n2 d p hleaf hwf hcont h
    exfalso
    subst hleaf
    obtain ⟨a, cs, rfl⟩ := WF_children_of_size hwf (le_of_lt h2)
    have hev := WF_children_even hwf
    have hok : getOctantIdx (Node.Children a cs) { origin := p, size := 1 } =
        .ok (pointOctant a p) := getOctantIdx_point (Node.Children a cs) p hcont hev.1
    have herr2 : getOctantIdx (Node.Children a cs) { origin := p, size := 1 } =
        .error f := herr
    rw [hok] at herr2
    cases herr2
  | case2 leaf idx a cs child hc f herr h2 hidx ih =>
    intro n2 d p hleaf hwf hcont h
    exfalso
    rw [Node.add_down, if_pos h2] at h
    split at h
    · cases h
    · next idx' heq =>
      rw [hidx] at heq
      injection heq with hi
      subst hi
      simp only [] at h
      split at h
      · next child' heq2 =>
        rw [hc] at heq2
        injection heq2 with hch
        subst hch
        split at h
        · cases h
        · next c' heq3 =>
          rw [herr] at heq3
          cases heq3
      · next heq2 =>
        rw [hc] at heq2
        cases heq2
  | case3 leaf idx a cs child hc c hcrec h2 hidx ih =>
    intro n2 d p hleaf hwf hcont h
    subst hleaf
    have hconta : a.contains p = true := hcont
    have hev := WF_children_even hwf
    have heva : a.size = 2 * (a.size / 2) := hev.1
    obtain ⟨hpow, hlen, halign, hwfc⟩ := WF_children_inv hwf
    have hok : getOctantIdx (Node.Children a cs) { origin := p, size := 1 } =
        .ok (pointOctant a p) := getOctantIdx_point (Node.Children a cs) p hcont hev.1
    have hidx2 : getOctantIdx (Node.Children a cs) { origin := p, size := 1 } =
        .ok idx := hidx
    rw [hok] at hidx2
    injection hidx2 with hi
    subst hi
    have hchildA : child.aabc = octantCube a (pointOctant a p) := halign _ _ hc
    have hchildWF : WF child := hwfc _ _ hc
    have hchildcont : child.aabc.contains p = true := by
      rw [hchildA]
      exact octantCube_pointOctant_contains a p hconta heva
    obtain ⟨hwfc2, hcaabc, hlkc, hlknone⟩ := ih c d p rfl hchildWF hchildcont hcrec
    rw [Node.add_down, if_pos h2] at h
    split at h
    · cases h
    · next idx' heq =>
      rw [hidx] at heq
      injection heq with hi2
      subst hi2
      simp only [] at h
      split at h
      · next child' heq2 =>
        rw [hc] at heq2
        injection heq2 with hch
        subst hch
        split at h
        · cases h
        · next c' heq3 =>
          rw [hcrec] at heq3
          injection heq3 with hc2
          subst hc2
          cases h
          refine ⟨?_, rfl, ?_, ?_⟩
          · exact WF_set_slot hwf (pointOctant_lt a p) (by rw [hcaabc, hchildA]) hwfc2
          · intro q
            have hset := lookup_set_slot (a := a) (c := c) hlen (pointOctant_lt a p)
            rw [hset q]
            by_cases hqp : q = p
            · subst hqp
              rw [if_pos ⟨hconta, rfl⟩, hlkc, if_pos rfl, if_pos rfl]
            · by_cases hcq : a.contains q = true ∧ pointOctant a q = pointOctant a p
              · rw [if_pos hcq, hlkc, if_neg hqp, if_neg hqp]
                exact (lookup_Children_some a cs q child hcq.1
                  (by rw [hcq.2]; exact hc)).symm
              · rw [if_neg hcq, if_neg hqp]
          · rw [lookup_Children_some a cs p child hconta hc]
            exact hlknone
      · next heq2 =>
        rw [hc] at heq2
        cases heq2
  | case4 leaf idx a cs hc f herr h2 hidx =>
    intro n2 d p hleaf hwf hcont h
    exfalso
    subst hleaf
    have hconta : a.contains p = true := hcont
    have herr2 : a.shrink_towards p = .error f := herr
    unfold Aabc.shrink_towards at herr2
    rw [hconta] at herr2
    simp at herr2
  | case5 leaf idx a cs hc sh hsh f herr h2 hidx =>
    intro n2 d p hleaf hwf hcont h
    rw [Node.add_down, if_pos h2] at h
    split at h
    · cases h
    · next idx' heq =>
      rw [hidx] at heq
      injection heq with hi
      subst hi
      simp only [] at h
      split at h
      · next child' heq2 =>
        rw [hc] at heq2
        cases heq2
      · next heq2 =>
        split at h
        · cases h
        · next sh' heq3 =>
          rw [hsh] at heq3
          injection heq3 with hsheq
          subst hsheq
          split at h
          · cases h
          · next self1 idx2 heq4 =>
            rw [herr] at heq4
            cases heq4
  | case6 leaf idx a cs hc sh hsh self1 idx2 hadd f herr h2 hidx =>
    intro n2 d p hleaf hwf hcont h
    rw [Node.add_down, if_pos h2] at h
    split at h
    · cases h
    · next idx' heq =>
      rw [hidx] at heq
      injection heq with hi
      subst hi
      simp only [] at h
      split at h
      · next child' heq2 =>
        rw [hc] at heq2
        cases heq2
      · next heq2 =>
        split at h
        · cases h
        · next sh' heq3 =>
          rw [hsh] at heq3
          injection heq3 with hsheq
          subst hsheq
          split at h
          · cases h
          · next self1' idx2' heq4 =>
            split at h
            · cases h
            · next c' heq5 =>
              rw [herr] at heq5
              cases heq5
  | case7 leaf idx a cs hc sh hsh idx2 c hfres a2 cs2 h2 hidx hadd =>
    intro n2 d p hleaf hwf hcont h
    subst hleaf
    have hconta : a.contains p = true := hcont
    have hev := WF_children_even hwf
    have heva : a.size = 2 * (a.size / 2) := hev.1
    obtain ⟨hpow, hlen, halign, hwfc⟩ := WF_children_inv hwf
    have hok : getOctantIdx (Node.Children a cs) { origin := p, size := 1 } =
        .ok (pointOctant a p) := getOctantIdx_point (Node.Children a cs) p hcont hev.1
    have hidx2 : getOctantIdx (Node.Children a cs) { origin := p, size := 1 } =
        .ok idx := hidx
    rw [hok] at hidx2
    injection hidx2 with hi
    subst hi
    have hsh2 : a.shrink_towards p = .ok sh := hsh
    obtain ⟨hshc, -⟩ := Aabc.shrink_towards_ok hsh2
    have hshoct : sh = octantCube a (pointOctant a p) := by
      rw [hshc, shrinkCore_eq_octantCube]
    obtain ⟨a0, cs0, hself0, hcont0, hsize0, hidx3, hslot0, hres⟩ := add_child_ok hadd
    injection hself0 with ha0 hcs0
    subst ha0
    subst hcs0
    have hidx4 : getOctantIdx (Node.Children a cs) sh = .ok idx2 := hidx3
    have hocteq : getOctantIdx (Node.Children a cs) (octantCube a (pointOctant a p)) =
        .ok (pointOctant a p) := getOctantIdx_octantCube _ _ (pointOctant_lt a p) hev.2
    rw [hshoct, hocteq] at hidx4
    injection hidx4 with hi2
    subst hi2
    injection hres with hra hrb
    obtain rfl := hra.symm
    subst hrb
    have hpowsh : ∃ k2, sh.size = 2 ^ (k2 + 1) := by
      obtain ⟨k, hk⟩ := hpow
      match k with
      | 0 =>
        have h2' : 2 < a.size := h2
        rw [hk] at h2'
        omega
      | k + 1 =>
        refine ⟨k, ?_⟩
        have hsz : sh.size = a.size / 2 := by rw [hshoct]; rfl
        have hp1 : (2 : Nat) ^ (k + 1 + 1) = 2 * 2 ^ (k + 1) := by ring
        rw [hsz, hk, hp1]
        omega
    have hcontsh : sh.contains p = true := by
      rw [hshoct]
      exact octantCube_pointOctant_contains a p hconta heva
    obtain ⟨hwfc2, hcaabc, hlkc⟩ :=
      addDownFresh_ok sh (Node.newLeaf d p) c d p rfl hpowsh hcontsh hfres
    rw [Node.add_down, if_pos h2] at h
    split at h
    · cases h
    · next idx' heq =>
      rw [hidx] at heq
      injection heq with hi3
      subst hi3
      simp only [] at h
      split at h
      · next child' heq2 =>
        rw [hc] at heq2
        cases heq2
      · next heq2 =>
        split at h
        · cases h
        · next sh' heq3 =>
          rw [hsh] at heq3
          injection heq3 with hsheq
          subst hsheq
          split at h
          · cases h
          · next self1' idx2' heq4 =>
            rw [hadd] at heq4
            injection heq4 with heq5
            injection heq5 with heq6 heq7
            subst heq6
            subst heq7
            split at h
            · cases h
            · next c' heq8 =>
              rw [hfres] at heq8
              injection heq8 with hceq
              subst hceq
              simp only [] at h
              cases h
              rw [List.set_set]
              refine ⟨?_, rfl, ?_, ?_⟩
              · exact WF_set_slot hwf (pointOctant_lt a p)
                  (by rw [hcaabc, hshoct]) hwfc2
              · intro q
                have hset := lookup_set_slot (a := a) (c := c) hlen
                  (pointOctant_lt a p)
                rw [hset q]
                by_cases hqp : q = p
                · subst hqp
                  rw [if_pos ⟨hconta, rfl⟩, hlkc, if_pos rfl, if_pos rfl]
                · by_cases hcq : a.contains q = true ∧
                      pointOctant a q = pointOctant a p
                  · rw [if_pos hcq, hlkc, if_neg hqp, if_neg hqp]
                    exact (lookup_Children_none a cs q hcq.1
                      (by rw [hcq.2]; exact hc)).symm
                  · rw [if_neg hcq, if_neg hqp]
              · exact lookup_Children_none a cs p hconta hc
  | case8 leaf idx a cs hc sh hsh idx2 c hfres a2 v h2 hidx hadd =>
    intro n2 d p hleaf hwf hcont h
    exfalso
    obtain ⟨a0, cs0, hself0, hcont0, hsize0, hidx3, hslot0, hres⟩ := add_child_ok hadd
    exact Node.noConfusion hres
  | case9 leaf idx a v h2 hidx =>
    intro n2 d p hleaf hwf hcont h
    exfalso
    cases hwf with
    | value a2 v2 h1 =>
      have h2' : 2 < a.size := h2
      rw [h1] at h2'
      omega
  | case10 self leaf h2 f herr =>
    intro n2 d p hleaf hwf hcont h
    rw [Node.add_down, if_neg h2] at h
    split at h
    · cases h
    · next self1 idx2 heq =>
      rw [herr] at heq
      cases heq
  | case11 self leaf h2 self1 idx2 hadd =>
    intro n2 d p hleaf hwf hcont h
    subst hleaf
    obtain ⟨a0, cs0, hself0, hcont0, hsize0, hidx3, hslot0, hres⟩ := add_child_ok hadd
    subst hself0
    subst hres
    obtain ⟨hpow, hlen, halign, hwfc⟩ := WF_children_inv hwf
    have hconta : a0.contains p = true := hcont
    have hev := WF_children_even hwf
    have hok : getOctantIdx (Node.Children a0 cs0) { origin := p, size := 1 } =
        .ok (pointOctant a0 p) := getOctantIdx_point (Node.Children a0 cs0) p hcont hev.1
    have hidx4 : getOctantIdx (Node.Children a0 cs0) { origin := p, size := 1 } =
        .ok idx2 := hidx3
    rw [hok] at hidx4
    injection hidx4 with hi
    subst hi
    rw [Node.add_down, if_neg h2] at h
    split at h
    · cases h
    · next self1' idx2' heq =>
      rw [hadd] at heq
      injection heq with heq2
      injection heq2 with heq3 heq4
      subst heq3
      cases h
      refine ⟨?_, rfl, ?_, ?_⟩
      · exact WF_set_slot hwf (pointOctant_lt a0 p)
          (add_child_align hadd (le_refl 1)).1 (WF.value _ d rfl)
      · intro q
        have hset := lookup_set_slot (a := a0) (c := Node.newLeaf d p) hlen
          (pointOctant_lt a0 p)
        rw [hset q]
        by_cases hqp : q = p
        · subst hqp
          rw [if_pos ⟨hconta, rfl⟩, lookup_newLeaf, if_pos rfl, if_pos rfl]
        · by_cases hcq : a0.contains q = true ∧ pointOctant a0 q = pointOctant a0 p
          · rw [if_pos hcq, lookup_newLeaf, if_neg hqp, if_neg hqp]
            exact (lookup_Children_none a0 cs0 q hcq.1
              (by rw [hcq.2]; exact hslot0)).symm
          · rw [if_neg hcq, if_neg hqp]
      · exact lookup_Children_none a0 cs0 p hconta hslot0

/-- Specification of `Octree::insert_leaf` on a well-formed octree: success
bumps the leaf count, keeps the tree well-formed, stores the new leaf at its
position, and leaves every other position unchanged. -/
theorem insert_leaf_ok {T : Type} (t : Octree T) (d : T) (p : V3) (t2 : Octree T)
    (hwf : OctWF t) (h : t.insert_leaf d p = .ok t2) :
    OctWF t2 ∧ t2.n_leaves = t.n_leaves + 1 ∧
      ∀ q, lookupO t2 q = if q = p then some d else lookupO t q := by
  rw [Octree.insert_leaf] at h
  rcases hroot : t.root with _ | node
  · rw [hroot] at h
    simp only [] at h
    cases h
    refine ⟨WF.value _ d rfl, rfl, ?_⟩
    intro q
    show lookup (Node.newLeaf d p) q = _
    rw [lookup_newLeaf]
    rw [lookupO, hroot]
  · rw [hroot] at h
    simp only [] at h
    have hwfn : WF node := by
      rw [OctWF, hroot] at hwf
      exact hwf
    split at h
    · cases h
    · next node1 heq =>
      obtain ⟨hwf1, hcont1, hlk1⟩ := expandLoop_ok node p node1 hwfn heq
      split at h
      · cases h
      · next node2 heq2 =>
        obtain ⟨hwf2, haabc2, hlk2, -⟩ :=
          add_down_ok node1 (Node.newLeaf d p) node2 d p rfl hwf1 hcont1 heq2
        cases h
        refine ⟨hwf2, rfl, ?_⟩
        intro q
        show lookup node2 q = _
        rw [hlk2 q, hlk1 q, lookupO, hroot]

/-! ## C2: duplicate insert -/

/-- C2 (counterexample to the original claim): inserting a duplicate position
into a well-formed two-leaf octree does raise the duplicate-child fault, but
the state observable at the panic has `n_leaves` incremented from 2 to 3 and
the root detached (`None`) — the failed insert mutates both the count and the
tree, contradicting the claimed atomicity. -/
theorem insert_duplicate_counterexample :
    (⟨2, some (.Children ⟨⟨0,0,0⟩,2⟩ [none, none, none, none, none,
        some (.Value ⟨⟨1,0,0⟩,1⟩ 2), some (.Value ⟨⟨0,0,0⟩,1⟩ 1), none])⟩ :
      Octree Int).insert_leaf 5 ⟨0,0,0⟩ =
      .error (.duplicateChild, ⟨3, none⟩) := by
  simp [Octree.insert_leaf, expandLoop, Node.add_down, Node.add_child, getOctantIdx,
    octantContains, Aabc.contains, Aabc.contains_aabc, Node.aabc, Node.newLeaf]

/-- C2 (amended): on every well-formed octree, inserting at a position that
already holds a leaf fails with some fault, and the octree state observable
at the panic is `n_leaves` incremented by one with the root detached — the
failed insert does mutate the observable state, unlike the claim's
unchanged-state assertion. -/
theorem insert_duplicate {T : Type} (t : Octree T) (d v0 : T) (p : V3)
    (hwf : OctWF t) (hpres : lookupO t p = some v0) :
    ∃ f, t.insert_leaf d p =
      .error (f, { n_leaves := t.n_leaves + 1, root := none }) := by
  rcases hroot : t.root with _ | node
  · rw [lookupO, hroot] at hpres
    cases hpres
  · have hwfn : WF node := by
      rw [OctWF, hroot] at hwf
      exact hwf
    have hlk : lookup node p = some v0 := by
      rw [lookupO, hroot] at hpres
      exact hpres
    have hcont : node.aabc.contains p = true := lookup_some_contains hwfn hlk
    have hel : expandLoop node p = .ok node := by
      rw [expandLoop, if_pos hcont]
    rcases hres : node.add_down (Node.newLeaf d p) with f | n2
    · refine ⟨f, ?_⟩
      simp only [Octree.insert_leaf, hroot, hel, hres]
    · exfalso
      obtain ⟨-, -, -, hnone⟩ := add_down_ok node _ n2 d p rfl hwfn hcont hres
      rw [hnone] at hlk
      cases hlk

/-- Witness for the amended C2 theorem at a concrete single-leaf octree. -/
theorem insert_duplicate_witness :
    ∃ f, (⟨1, some (.Value ⟨⟨0,0,0⟩,1⟩ 37)⟩ : Octree Int).insert_leaf 5 ⟨0,0,0⟩ =
      .error (f, ⟨2, none⟩) :=
  insert_duplicate ⟨1, some (.Value ⟨⟨0,0,0⟩,1⟩ 37)⟩ 5 37 ⟨0,0,0⟩
    (WF.value _ _ rfl) (by simp [lookupO, lookup])

/-! ## C3: failed removes -/

theorem contains_aabc_unit (a : Aabc) (p : V3) :
    a.contains_aabc (Aabc.new p 1) = true ↔ a.contains p = true := by
  rcases a with ⟨⟨ax, ay, az⟩, s⟩
  rcases p with ⟨px, py, pz⟩
  simp only [Aabc.contains_aabc, Aabc.contains, Aabc.new, Bool.and_eq_true,
    Bool.not_eq_true', decide_eq_false_iff_not, not_lt, not_le, gt_iff_lt]
  omega

theorem octantContains_to_cube (a t : Aabc) (o1 o2 o3 : Bool)
    (h : octantContains o1 o2 o3 t a = true) :
    (octantCube a (octIdx o1 o2 o3)).contains_aabc t = true := by
  simp only [octantContains] at h
  simp only [octantCube, octantOffs_octIdx]
  exact h

/-- Inversion of a successful `get_octant_idx` at a unit target cube: the
parent cube contains the point and the returned index is its point octant. -/
theorem getOctantIdx_unit_inv {T : Type} {a : Aabc} {cs : List (Option (Node T))}
    {p : V3} {idx : Nat} (hev : a.size = 2 * (a.size / 2))
    (hidx : getOctantIdx (Node.Children a cs) (Aabc.new p 1) = .ok idx) :
    a.contains p = true ∧ pointOctant a p = idx := by
  obtain ⟨o1, o2, o3, hio, hoc⟩ := getOctantIdx_ok_inv hidx
  have hoc2 : octantContains o1 o2 o3 (Aabc.new p 1) a = true := hoc
  have hcube := octantContains_to_cube a _ o1 o2 o3 hoc2
  have hcp : (octantCube a (octIdx o1 o2 o3)).contains p = true :=
    (contains_aabc_unit _ p).1 hcube
  have hi8 : octIdx o1 o2 o3 < 8 := octIdx_lt o1 o2 o3
  subst hio
  exact ⟨contains_of_octantCube a p _ hev hcp,
    pointOctant_eq_of_contains a p _ hi8 hev hcp⟩

theorem set_getD {α : Type} : ∀ (l : List α) (i : Nat) (d : α),
    l.set i (l.getD i d) = l := by
  intro l
  induction l with
  | nil => intro i d; rfl
  | cons x xs ih =>
    intro i d
    cases i with
    | zero => rfl
    | succ i => simp only [List.set, List.getD_cons_succ, ih]

theorem WF_unit_value {T : Type} {n : Node T} (hwf : WF n) (h1 : n.aabc.size = 1) :
    ∃ a v, n = Node.Value a v := by
  cases hwf with
  | value a v hv => exact ⟨a, v, rfl⟩
  | children a cs hpow hlen halign hwfc =>
    exfalso
    obtain ⟨k, hk⟩ := hpow
    have h2 : (1 : Nat) ≤ 2 ^ k := Nat.one_le_two_pow
    have h3 : (2 : Nat) ^ (k + 1) = 2 * 2 ^ k := by ring
    have h1' : a.size = 1 := h1
    omega

/-- `remove_child` on a well-formed node that stores nothing at `p` fails,
and the node carried by the error is the node unchanged. -/
theorem remove_child_not_found {T : Type} (self : Node T) (p : V3)
    (hwf : WF self) (habs : lookup self p = none) :
    ∃ f, self.remove_child (Aabc.new p 1) = .error (f, self) := by
  have hgen : ∀ (sf : Node T) (target : Aabc) (p : V3), target = Aabc.new p 1 →
      WF sf → lookup sf p = none → ∃ f, sf.remove_child target = .error (f, sf) := by
    intro sf target
    induction sf, target using Node.remove_child.induct with
    | case1 self target f herr =>
      intro p htgt hwf habs
      subst htgt
      refine ⟨f, ?_⟩
      rw [Node.remove_child]
      split
      · next f' heq =>
        rw [herr] at heq
        injection heq with hf
        subst hf
        rfl
      · next idx' heq =>
        rw [herr] at heq
        cases heq
    | case2 idx a cs child hc hidx =>
      intro p htgt hwf habs
      exfalso
      obtain ⟨hpow, hlen, halign, hwfc⟩ := WF_children_inv hwf
      have hev := WF_children_even hwf
      have hchildWF : WF child := hwfc _ _ hc
      have hca : child.aabc = octantCube a idx := halign _ _ hc
      obtain ⟨hcontp, hpo⟩ := getOctantIdx_unit_inv hev.1 (htgt ▸ hidx)
      have hlks : lookup (Node.Children a cs) p = lookup child p :=
        lookup_Children_some a cs p child hcontp (by rw [hpo]; exact hc)
      have hsz1 : child.aabc.size = 1 := by rw [htgt]; rfl
      obtain ⟨av, vv, hval⟩ := WF_unit_value hchildWF hsz1
      subst hval
      have hav : av = Aabc.new p 1 := htgt
      rw [hlks, lookup_Value, if_pos (show av.origin = p by rw [hav]; rfl)] at habs
      cases habs
    | case3 target idx a cs child hc hneq f node1 herr hidx ih =>
      intro p htgt hwf habs
      subst htgt
      obtain ⟨hpow, hlen, halign, hwfc⟩ := WF_children_inv hwf
      have hev := WF_children_even hwf
      obtain ⟨hcontp, hpo⟩ := getOctantIdx_unit_inv hev.1 hidx
      have hchildWF : WF child := hwfc _ _ hc
      have habsc : lookup child p = none := by
        rw [← lookup_Children_some a cs p child hcontp (by rw [hpo]; exact hc)]
        exact habs
      obtain ⟨f2, hrec2⟩ := ih p rfl hchildWF habsc
      rw [herr] at hrec2
      injection hrec2 with hpair
      injection hpair with hf hnode
      refine ⟨f, ?_⟩
      rw [Node.remove_child]
      split
      · next f' heq =>
        rw [hidx] at heq
        cases heq
      · next idx' heq =>
        rw [hidx] at heq
        injection heq with hi
        subst hi
        simp only []
        split
        · next child' heq2 =>
          rw [hc] at heq2
          injection heq2 with hch
          subst hch
          rw [if_neg hneq]
          split
          · next f' node1' heq3 =>
            rw [herr] at heq3
            injection heq3 with hp2
            injection hp2 with hf2 hn2
            subst hf2
            subst hn2
            have hsetsame : cs.set idx (some child) = cs := by
              conv_lhs => rw [← hc]
              exact set_getD cs idx none
            rw [hnode, hsetsame]
          · next node1' rm' heq3 =>
            rw [herr] at heq3
            cases heq3
        · next heq2 =>
          rw [hc] at heq2
          cases heq2
    | case4 target idx a cs child hc hneq node1 rm hok hidx ih =>
      intro p htgt hwf habs
      exfalso
      subst htgt
      obtain ⟨hpow, hlen, halign, hwfc⟩ := WF_children_inv hwf
      have hev := WF_children_even hwf
      obtain ⟨hcontp, hpo⟩ := getOctantIdx_unit_inv hev.1 hidx
      have hchildWF : WF child := hwfc _ _ hc
      have habsc : lookup child p = none := by
        rw [← lookup_Children_some a cs p child hcontp (by rw [hpo]; exact hc)]
        exact habs
      obtain ⟨f2, hrec2⟩ := ih p rfl hchildWF habsc
      rw [hok] at hrec2
      cases hrec2
    | case5 target idx a cs hc hidx =>
      intro p htgt hwf habs
      subst htgt
      refine ⟨.childNotFound, ?_⟩
      rw [Node.remove_child]
      split
      · next f' heq =>
        rw [hidx] at heq
        cases heq
      · next idx' heq =>
        rw [hidx] at heq
        injection heq with hi
        subst hi
        simp only []
        split
        · next child' heq2 =>
          rw [hc] at heq2
          cases heq2
        · next heq2 =>
          rfl
    | case6 target idx a v hidx =>
      intro p htgt hwf habs
      subst htgt
      refine ⟨.removeFromValue, ?_⟩
      rw [Node.remove_child]
      split
      · next f' heq =>
        rw [hidx] at heq
        cases heq
      · next idx' heq =>
        rfl
  exact hgen self (Aabc.new p 1) p rfl hwf habs

/-- C3 (counterexample to the original claim): removing the absent position
`(1,1,0)` from a well-formed two-leaf octree raises the child-not-found
fault, but the state observable at the panic has `n_leaves` already
decremented from 2 to 1 (the tree itself is unchanged) — the failed remove
is not atomic. -/
theorem remove_absent_counterexample :
    (⟨2, some (.Children ⟨⟨0,0,0⟩,2⟩ [none, none, none, none, none,
        some (.Value ⟨⟨1,0,0⟩,1⟩ 2), some (.Value ⟨⟨0,0,0⟩,1⟩ 1), none])⟩ :
      Octree Int).remove_leaf ⟨1,1,0⟩ =
      .error (.childNotFound, ⟨1, some (.Children ⟨⟨0,0,0⟩,2⟩ [none, none, none,
        none, none, some (.Value ⟨⟨1,0,0⟩,1⟩ 2),
        some (.Value ⟨⟨0,0,0⟩,1⟩ 1), none])⟩) := by
  simp [Octree.remove_leaf, Node.remove_child, getOctantIdx, octantContains,
    Aabc.contains_aabc, Aabc.new, Node.aabc]

/-- C3 (amended): on a well-formed octree, removing a position that holds no
leaf always fails.  On the empty octree the fault is the `u32` underflow of
`n_leaves -= 1` and the state is untouched; on a nonzero count the root is
unchanged at the panic but `n_leaves` has already been decremented, so the
failed remove is not atomic in that case. -/
theorem remove_leaf_not_found {T : Type} (t : Octree T) (p : V3)
    (hwf : OctWF t) (habs : lookupO t p = none) :
    ∃ f t1, t.remove_leaf p = .error (f, t1) ∧ t1.root = t.root ∧
      (t.n_leaves = 0 → t1 = t) ∧
      (t.n_leaves ≠ 0 → t1.n_leaves = t.n_leaves - 1) := by
  by_cases hn : t.n_leaves = 0
  · refine ⟨.subUnderflow, t, ?_, rfl, fun _ => rfl, fun h => absurd hn h⟩
    rw [Octree.remove_leaf, if_pos hn]
  · rcases hroot : t.root with _ | node
    · refine ⟨.emptyTree, ⟨t.n_leaves - 1, none⟩, ?_, by simp [hroot],
        fun h0 => absurd h0 hn, fun _ => rfl⟩
      rw [Octree.remove_leaf, if_neg hn]
      simp only [hroot]
    · have hwfn : WF node := by
        rw [OctWF, hroot] at hwf
        exact hwf
      have hlkn : lookup node p = none := by
        rw [lookupO, hroot] at habs
        exact habs
      have hne : node.aabc ≠ Aabc.new p 1 := by
        intro he
        have hs1 : node.aabc.size = 1 := by rw [he]; rfl
        obtain ⟨av, vv, hval⟩ := WF_unit_value hwfn hs1
        subst hval
        have hav : av = Aabc.new p 1 := he
        rw [lookup_Value, if_pos (show av.origin = p by rw [hav]; rfl)] at hlkn
        cases hlkn
      obtain ⟨f, hrc⟩ := remove_child_not_found node p hwfn hlkn
      refine ⟨f, ⟨t.n_leaves - 1, some node⟩, ?_, by simp [hroot],
        fun h0 => absurd h0 hn, fun _ => rfl⟩
      rw [Octree.remove_leaf, if_neg hn]
      simp only [hroot]
      rw [if_neg hne]
      split
      · next f' node1' heq =>
        rw [hrc] at heq
        injection heq with hp2
        injection hp2 with hf hn2
        subst hf
        subst hn2
        rfl
      · next node1' rm' heq =>
        rw [hrc] at heq
        cases heq

/-- Witness for the amended C3 theorem: removing the absent position
`(2,0,0)` from a concrete single-leaf octree. -/
theorem remove_leaf_not_found_witness :
    ∃ f t1, (⟨1, some (.Value ⟨⟨0,0,0⟩,1⟩ 7)⟩ : Octree Int).remove_leaf ⟨2,0,0⟩ =
        .error (f, t1) ∧
      t1.root = (⟨1, some (.Value ⟨⟨0,0,0⟩,1⟩ 7)⟩ : Octree Int).root ∧
      ((1 : Nat) = 0 → t1 = ⟨1, some (.Value ⟨⟨0,0,0⟩,1⟩ 7)⟩) ∧
      ((1 : Nat) ≠ 0 → t1.n_leaves = 1 - 1) :=
  remove_leaf_not_found ⟨1, some (.Value ⟨⟨0,0,0⟩,1⟩ 7)⟩ ⟨2,0,0⟩
    (WF.value _ _ rfl) (by simp [lookupO, lookup])

/-! ## C4: root size across removes -/

theorem WF_set_none {T : Type} {a : Aabc} {cs : List (Option (Node T))} {i0 : Nat}
    (hwf : WF (.Children a cs)) : WF (.Children a (cs.set i0 none)) := by
  obtain ⟨hpow, hlen, halign, hwfc⟩ := WF_children_inv hwf
  have hget : ∀ j (c : Node T), (cs.set i0 none).getD j none = some c →
      cs.getD j none = some c := by
    intro j c hj
    by_cases hij : i0 = j
    · subst hij
      by_cases hlt : i0 < cs.length
      · rw [getD_set_self _ _ _ _ hlt] at hj
        cases hj
      · rw [List.getD_eq_getElem?_getD,
          List.getElem?_eq_none (by rw [List.length_set]; omega)] at hj
        cases hj
    · rw [getD_set_ne _ _ _ _ _ hij] at hj
      exact hj
  refine WF.children _ _ hpow (by rw [List.length_set]; exact hlen) ?_ ?_
  · intro j c hj
    exact halign _ _ (hget j c hj)
  · intro j c hj
    exact hwfc _ _ (hget j c hj)

/-- A successful `remove_child` keeps the node's own cube and
well-formedness. -/
theorem remove_child_ok_preserves {T : Type} (self : Node T) (target : Aabc)
    (node1 : Node T) (rm : Bool) (hwf : WF self)
    (h : self.remove_child target = .ok (node1, rm)) :
    node1.aabc = self.aabc ∧ WF node1 := by
  match self with
  | .Value a v =>
    rw [Node.remove_child] at h
    split at h
    · cases h
    · simp only [] at h
      cases h
  | .Children a cs =>
    obtain ⟨hpow, hlen, halign, hwfc⟩ := WF_children_inv hwf
    rw [Node.remove_child] at h
    simp only [] at h
    split at h
    · cases h
    · rename_i idx hidx
      split at h
      · rename_i child h3
        have hchildWF : WF child := hwfc _ _ h3
        have hi8 : idx < 8 := by
          obtain ⟨o1, o2, o3, hio, -⟩ := getOctantIdx_ok_inv hidx
          rw [hio]
          exact octIdx_lt o1 o2 o3
        by_cases heq : child.aabc = target
        · rw [if_pos heq] at h
          injection h with hpair
          injection hpair with hn hrm
          subst hn
          exact ⟨rfl, WF_set_none hwf⟩
        · rw [if_neg heq] at h
          split at h
          · cases h
          · rename_i node1' rm' hrec
            injection h with hpair
            injection hpair with hn hrm
            subst hn
            obtain ⟨hpre, hwf1⟩ :=
              remove_child_ok_preserves child target node1' rm' hchildWF hrec
            refine ⟨rfl, ?_⟩
            cases rm' with
            | false =>
              simp only [Bool.false_eq_true, if_false]
              exact WF_set_slot hwf hi8 (by rw [hpre, halign _ _ h3]) hwf1
            | true =>
              simp only [if_true]
              exact WF_set_none hwf
      · rename_i h3
        cases h
termination_by sizeOf self
decreasing_by
  exact sizeOf_child_lt (by assumption) _

/-- The root-shrink pass never enlarges the root cube (on a well-formed root
it halves it once per collapsed level). -/
theorem shrinkRootNode_size {T : Type} (root r : Node T) (hwf : WF root)
    (h : shrinkRootNode root = .ok r) : r.aabc.size ≤ root.aabc.size := by
  match root with
  | .Value a v =>
    simp only [shrinkRootNode] at h
    cases h
    exact le_refl _
  | .Children a cs =>
    obtain ⟨hpow, hlen, halign, hwfc⟩ := WF_children_inv hwf
    simp only [shrinkRootNode] at h
    by_cases h1 : (Node.Children a cs).count_children.1 = 1
    · rw [if_pos h1] at h
      rcases h2 : (Node.Children a cs).count_children.2 with _ | i
      · rw [h2] at h
        cases h
      · rw [h2] at h
        simp only [] at h
        split at h
        · rename_i child h3
          have hchildWF : WF child := hwfc _ _ h3
          have hrec := shrinkRootNode_size child r hchildWF h
          have hchsz : child.aabc.size = a.size / 2 := by
            rw [halign _ _ h3]
            rfl
          have hle : r.aabc.size ≤ a.size := by omega
          exact hle
        · cases h
    · rw [if_neg h1] at h
      cases h
      exact le_refl _
termination_by sizeOf root
decreasing_by
  exact sizeOf_child_lt (by assumption) _

/-- C4 (counterexample to the original claim): removing one of the two
leaves of a size-2 root makes the shrink pass replace the root by the
remaining leaf, so the root cube size drops from 2 to 1 — the root size does
decrease across a successful `remove_leaf` (this mirrors the source's own
`insert_2_and_remove_1_leaf` test). -/
theorem remove_shrinks_root_counterexample :
    (⟨2, some (.Children ⟨⟨0,0,0⟩,2⟩ [none, none, none, none, none,
        some (.Value ⟨⟨1,0,0⟩,1⟩ 2), some (.Value ⟨⟨0,0,0⟩,1⟩ 1), none])⟩ :
      Octree Int).remove_leaf ⟨0,0,0⟩ =
      .ok ⟨1, some (.Value ⟨⟨1,0,0⟩,1⟩ 2)⟩ := by
  simp [Octree.remove_leaf, Node.remove_child, getOctantIdx, octantContains,
    Aabc.contains_aabc, Aabc.new, Node.count_children, countChildrenAux,
    shrinkRootNode, Node.aabc]

/-- C4 (amended): across a successful `remove_leaf` on a well-formed octree
the root cube never grows — whenever a root remains it is at most as large as
the previous root's cube (it shrinks by halving when the shrink pass
collapses single-child levels, contrary to the claimed 'never decreases'). -/
theorem remove_leaf_root_size {T : Type} (t t2 : Octree T) (p : V3)
    (hwf : OctWF t) (h : t.remove_leaf p = .ok t2) :
    ∀ n2, t2.root = some n2 →
      ∃ n, t.root = some n ∧ n2.aabc.size ≤ n.aabc.size := by
  intro n2 hroot2
  simp only [Octree.remove_leaf] at h
  by_cases h0 : t.n_leaves = 0
  · rw [if_pos h0] at h
    cases h
  · rw [if_neg h0] at h
    rcases ht : t.root with _ | node
    · rw [ht] at h
      simp only [] at h
      cases h
    · rw [ht] at h
      simp only [] at h
      have hwfn : WF node := by
        rw [OctWF, ht] at hwf
        exact hwf
      by_cases he : node.aabc = Aabc.new p 1
      · rw [if_pos he] at h
        cases h
        cases hroot2
      · rw [if_neg he] at h
        split at h
        · cases h
        · rename_i node1 rm hrc
          obtain ⟨hpre, hwf1⟩ :=
            remove_child_ok_preserves node (Aabc.new p 1) node1 rm hwfn hrc
          by_cases hrm : rm = true
          · rw [if_pos hrm] at h
            cases h
            cases hroot2
          · rw [if_neg hrm] at h
            split at h
            · cases h
            · rename_i node2 hsh
              cases h
              injection hroot2 with hn2
              subst hn2
              refine ⟨node, rfl, ?_⟩
              have hs := shrinkRootNode_size node1 node2 hwf1 hsh
              rw [hpre] at hs
              exact hs

/-- Well-formedness of the concrete two-leaf trees used by the witnesses. -/
theorem WF_twoLeaf (v1 v2 : Int) : WF (Node.Children ⟨⟨0,0,0⟩,2⟩ [none, none, none, none, none,
    some (.Value ⟨⟨1,0,0⟩,1⟩ v1), some (.Value ⟨⟨0,0,0⟩,1⟩ v2), none]) := by
  refine WF.children _ _ ⟨0, rfl⟩ rfl ?_ ?_
  · intro i c h
    rcases i with _|_|_|_|_|_|_|_|i
    · cases h
    · cases h
    · cases h
    · cases h
    · cases h
    · injection h with h2
      subst h2
      show (⟨⟨1,0,0⟩,1⟩ : Aabc) = octantCube ⟨⟨0,0,0⟩,2⟩ 5
      decide
    · injection h with h2
      subst h2
      show (⟨⟨0,0,0⟩,1⟩ : Aabc) = octantCube ⟨⟨0,0,0⟩,2⟩ 6
      decide
    · cases h
    · cases h
  · intro i c h
    rcases i with _|_|_|_|_|_|_|_|i
    · cases h
    · cases h
    · cases h
    · cases h
    · cases h
    · injection h with h2
      subst h2
      exact WF.value _ _ rfl
    · injection h with h2
      subst h2
      exact WF.value _ _ rfl
    · cases h
    · cases h

/-- Witness for the amended C4 theorem at the concrete two-leaf tree: after
removing `(0,0,0)` the remaining root (the leaf at `(1,0,0)`) has cube size
at most the previous root's. -/
theorem remove_leaf_root_size_witness :
    ∃ n, (⟨2, some (.Children ⟨⟨0,0,0⟩,2⟩ [none, none, none, none, none,
        some (.Value ⟨⟨1,0,0⟩,1⟩ 2), some (.Value ⟨⟨0,0,0⟩,1⟩ 1), none])⟩ :
      Octree Int).root = some n ∧
      (Node.Value ⟨⟨1,0,0⟩,1⟩ (2 : Int)).aabc.size ≤ n.aabc.size := by
  have h : (⟨2, some (.Children ⟨⟨0,0,0⟩,2⟩ [none, none, none, none, none,
      some (.Value ⟨⟨1,0,0⟩,1⟩ 2), some (.Value ⟨⟨0,0,0⟩,1⟩ 1), none])⟩ :
      Octree Int).remove_leaf ⟨0,0,0⟩ =
      .ok ⟨1, some (.Value ⟨⟨1,0,0⟩,1⟩ 2)⟩ := by
    simp [Octree.remove_leaf, Node.remove_child, getOctantIdx, octantContains,
      Aabc.contains_aabc, Aabc.new, Node.count_children, countChildrenAux,
      shrinkRootNode, Node.aabc]
  exact remove_leaf_root_size ⟨2, some (.Children ⟨⟨0,0,0⟩,2⟩ [none, none, none,
      none, none, some (.Value ⟨⟨1,0,0⟩,1⟩ 2), some (.Value ⟨⟨0,0,0⟩,1⟩ 1), none])⟩
    _ ⟨0,0,0⟩ (WF_twoLeaf 2 1) h (Node.Value ⟨⟨1,0,0⟩,1⟩ 2) rfl

/-! ## Serializer correctness: helpers -/

theorem getD_of_mem {T : Type} {cs : List (Option (Node T))} {c : Node T}
    (h : some c ∈ cs) : ∃ i, i < cs.length ∧ cs.getD i none = some c := by
  induction cs with
  | nil => cases h
  | cons hd tl ih =>
    rcases List.mem_cons.1 h with h1 | h1
    · exact ⟨0, by simp, by rw [← h1]; rfl⟩
    · obtain ⟨i, hi, hg⟩ := ih h1
      exact ⟨i + 1, by simp; omega, by rw [List.getD_cons_succ]; exact hg⟩

theorem getD_replicate (n j : Nat) : (List.replicate n (0 : Int)).getD j 0 = 0 := by
  rw [List.getD_eq_getElem?_getD, List.getElem?_replicate]
  split <;> rfl

theorem lookupInt_congr {T : Type} (into : T → Int) {n m : Node T} {p : V3}
    (h : lookup n p = lookup m p) : lookupInt into n p = lookupInt into m p := by
  rw [lookupInt, lookupInt, h]

theorem lookupInt_eq_some {T : Type} (into : T → Int) {n : Node T} {p : V3} {v : T}
    (h : lookup n p = some v) : lookupInt into n p = into v := by
  rw [lookupInt, h]

theorem lookupInt_eq_none {T : Type} (into : T → Int) {n : Node T} {p : V3}
    (h : lookup n p = none) : lookupInt into n p = 0 := by
  rw [lookupInt, h]

theorem BlocksCellsOK_nil {T : Type} (arr2 : List Int) :
    BlocksCellsOK ([] : List (Nat × Node T)) arr2 := by
  intro bm hbm
  cases hbm

theorem BlocksCellsOK_append {T : Type} {l1 l2 : List (Nat × Node T)} {arr2 : List Int}
    (h1 : BlocksCellsOK l1 arr2) (h2 : BlocksCellsOK l2 arr2) :
    BlocksCellsOK (l1 ++ l2) arr2 := by
  intro bm hbm i hi hsz
  rcases List.mem_append.1 hbm with h | h
  · exact h1 bm h i hi hsz
  · exact h2 bm h i hi hsz

theorem BlocksCellsOK_cons {T : Type} {b : Nat × Node T} {l : List (Nat × Node T)}
    {arr2 : List Int}
    (h1 : ∀ i, i < 8 → 2 < (b.2 : Node T).aabc.size →
      arr2.getD (b.1 + i) 0 = 0 ∨ ((b.1 : Int) + 8 ≤ arr2.getD (b.1 + i) 0))
    (h2 : BlocksCellsOK l arr2) : BlocksCellsOK (b :: l) arr2 := by
  intro bm hbm i hi hsz
  rcases List.mem_cons.1 hbm with h | h
  · subst h
    exact h1 i hi hsz
  · exact h2 bm h i hi hsz

theorem decode_eq_of_header (arr : List Int) (p : V3) (h4 : 4 ≤ arr.length) :
    decode arr p = decodeAux arr (arr.getD 0 0).toNat
      { origin := { x := arr.getD 1 0, y := arr.getD 2 0, z := arr.getD 3 0 },
        size := (arr.getD 0 0).toNat } 4 p := by
  match arr with
  | [] => simp at h4
  | [c0] => simp at h4
  | [c0, c1] => simp at h4
  | [c0, c1, c2] => simp at h4
  | c0 :: c1 :: c2 :: c3 :: rest => rfl

theorem writeLeaves_ok {T : Type} (into : T → Int) :
    ∀ (cs : List (Option (Node T))) (pos : Nat) (arr : List Int),
      (∀ c, some c ∈ cs → ∃ a v, c = Node.Value a v) →
      ∃ arr1, writeLeaves into pos arr cs = .ok arr1 := by
  intro cs
  induction cs with
  | nil =>
    intro pos arr hv
    exact ⟨arr, by rw [writeLeaves]⟩
  | cons hd tl ih =>
    intro pos arr hv
    match hd with
    | none =>
      obtain ⟨arr1, h1⟩ := ih (pos + 1) arr (fun c hc => hv c (List.mem_cons_of_mem _ hc))
      exact ⟨arr1, by rw [writeLeaves]; exact h1⟩
    | some c =>
      obtain ⟨a, v, hval⟩ := hv c (List.mem_cons_self _ _)
      subst hval
      obtain ⟨arr1, h1⟩ := ih (pos + 1) (arr.set pos (into v))
        (fun c hc => hv c (List.mem_cons_of_mem _ hc))
      exact ⟨arr1, by rw [writeLeaves]; exact h1⟩

theorem getSizeList_pruneLeafList {T : Type} (into : T → Int)
    (cs : List (Option (Node T))) :
    getSizeList (pruneLeafList into cs) = getSizeList cs := by
  induction cs with
  | nil => rfl
  | cons hd tl ih =>
    match hd with
    | none =>
      rw [pruneLeafList, getSizeList, getSizeList, ih]
    | some (.Value a v) =>
      rw [pruneLeafList]
      by_cases hz : into v = 0
      · rw [if_pos hz, getSizeList, getSizeList, getSizeRecurse, ih]
        omega
      · rw [if_neg hz, getSizeList, getSizeList, ih]
    | some (.Children a cs2) =>
      rw [pruneLeafList, getSizeList, getSizeList, ih]

theorem getSizeList_pruneChildList_aux {T : Type} (into : T → Int)
    (cs : List (Option (Node T)))
    (IH : ∀ c, some c ∈ cs → getSizeRecurse (pruneZeros into c) = getSizeRecurse c) :
    getSizeList (pruneChildList into cs) = getSizeList cs := by
  induction cs with
  | nil => rfl
  | cons hd tl ih =>
    match hd with
    | none =>
      rw [pruneChildList, getSizeList, getSizeList,
        ih (fun c hc => IH c (List.mem_cons_of_mem _ hc))]
    | some c =>
      rw [pruneChildList, getSizeList, getSizeList, IH c (List.mem_cons_self _ _),
        ih (fun c hc => IH c (List.mem_cons_of_mem _ hc))]

theorem getSizeRecurse_prune {T : Type} (into : T → Int) (c : Node T) :
    getSizeRecurse (pruneZeros into c) = getSizeRecurse c := by
  match c with
  | .Value a v => rfl
  | .Children a cs =>
    rw [pruneZeros]
    by_cases h2 : a.size = 2
    · rw [if_pos h2, getSizeRecurse, getSizeRecurse, getSizeList_pruneLeafList]
    · rw [if_neg h2, getSizeRecurse, getSizeRecurse,
        getSizeList_pruneChildList_aux into cs
          (fun c2 hc => getSizeRecurse_prune into c2)]
termination_by sizeOf c
decreasing_by
  exact sizeOf_child_lt_of_mem hc a

theorem pruneZeros_aabc {T : Type} (into : T → Int) (c : Node T) :
    (pruneZeros into c).aabc = c.aabc := by
  match c with
  | .Value a v => rfl
  | .Children a cs =>
    rw [pruneZeros]
    split <;> rfl

theorem writeLeaves_prune {T : Type} (into : T → Int) :
    ∀ (cs : List (Option (Node T))) (pos : Nat) (arr : List Int),
      (∀ j, pos ≤ j → j < pos + cs.length → arr.getD j 0 = 0) →
      writeLeaves into pos arr (pruneLeafList into cs) = writeLeaves into pos arr cs := by
  intro cs
  induction cs with
  | nil =>
    intro pos arr hz
    rfl
  | cons hd tl ih =>
    intro pos arr hz
    match hd with
    | none =>
      rw [pruneLeafList, writeLeaves, writeLeaves]
      exact ih (pos + 1) arr (fun j h1 h2 => hz j (by omega)
        (by simp only [List.length_cons]; omega))
    | some (.Value a v) =>
      rw [pruneLeafList]
      by_cases hzv : into v = 0
      · rw [if_pos hzv, writeLeaves, writeLeaves, hzv]
        have hset : arr.set pos 0 = arr := by
          have h0 : arr.getD pos 0 = 0 :=
            hz pos (le_refl _) (by simp only [List.length_cons]; omega)
          conv_lhs => rw [← h0]
          exact set_getD arr pos 0
        rw [hset]
        exact ih (pos + 1) arr (fun j h1 h2 => hz j (by omega)
          (by simp only [List.length_cons]; omega))
      · rw [if_neg hzv, writeLeaves, writeLeaves]
        refine ih (pos + 1) (arr.set pos (into v)) ?_
        intro j h1 h2
        rw [getD_set_ne _ _ _ _ _ (by omega)]
        exact hz j (by omega) (by simp only [List.length_cons]; omega)
    | some (.Children a cs2) =>
      rw [pruneLeafList, writeLeaves, writeLeaves]

/-- Full specification of the child loop of `serialize_recurse`: cursor
arithmetic, length and frame preservation, the per-slot cell contents and
per-child decodability of the final buffer, the forward-offset property of
all emitted blocks, and invariance under pruning zero-valued leaves. -/
theorem serializeChildren_spec {T : Type} (into : T → Int) :
    ∀ (cs : List (Option (Node T))),
      (∀ c, some c ∈ cs → SRSpec into c) →
      ∀ (pos start : Nat) (arr : List Int),
        start + getSizeList cs ≤ arr.length →
        pos + cs.length ≤ start →
        (∀ j, start ≤ j → j < start + getSizeList cs → arr.getD j 0 = 0) →
        ∃ arr1,
          serializeChildren into pos start arr cs = .ok (arr1, start + getSizeList cs) ∧
          arr1.length = arr.length ∧
          (∀ j, (j < pos ∨ pos + cs.length ≤ j) →
            (j < start ∨ start + getSizeList cs ≤ j) →
            arr1.getD j 0 = arr.getD j 0) ∧
          (∀ arr2, Agrees pos (pos + cs.length) arr2 arr1 →
            Agrees start (start + getSizeList cs) arr2 arr1 →
            (∀ i, i < cs.length →
              (cs.getD i none = none → arr2.getD (pos + i) 0 = arr.getD (pos + i) 0) ∧
              (∀ c, cs.getD i none = some c →
                arr2.getD (pos + i) 0 =
                  ((start + getSizeList (List.take i cs) : Nat) : Int) ∧
                DecodeOK into c (start + getSizeList (List.take i cs)) arr2)) ∧
            BlocksCellsOK (blocksChildren cs start) arr2) ∧
          serializeChildren into pos start arr (pruneChildList into cs) =
            serializeChildren into pos start arr cs := by
  intro cs
  induction cs with
  | nil =>
    intro hIH pos start arr harr hpos hzero
    refine ⟨arr, ?_, rfl, fun j h1 h2 => rfl, ?_, rfl⟩
    · rw [serializeChildren]
      simp [getSizeList]
    · intro arr2 hA hB
      refine ⟨?_, ?_⟩
      · intro i hi
        simp at hi
      · rw [blocksChildren]
        exact BlocksCellsOK_nil arr2
  | cons hd tl ih =>
    intro hIH pos start arr harr hpos hzero
    match hd with
    | none =>
      rw [getSizeList] at harr hzero
      obtain ⟨arr1, hser, hlen1, hframe1, hdec1, hprune1⟩ :=
        ih (fun c hc => hIH c (List.mem_cons_of_mem _ hc)) (pos + 1) start arr
          harr
          (by simp only [List.length_cons] at hpos; omega)
          hzero
      refine ⟨arr1, ?_, hlen1, ?_, ?_, ?_⟩
      · rw [serializeChildren, getSizeList]
        exact hser
      · intro j h1 h2
        rw [getSizeList] at h2
        simp only [List.length_cons] at h1
        refine hframe1 j ?_ h2
        omega
      · intro arr2 hA hB
        rw [getSizeList] at hB
        simp only [List.length_cons] at hA
        have hA' : Agrees (pos + 1) (pos + 1 + tl.length) arr2 arr1 :=
          fun j hj1 hj2 => hA j (by omega) (by omega)
        obtain ⟨hcells, hblocks⟩ := hdec1 arr2 hA' hB
        refine ⟨?_, ?_⟩
        · intro i hi
          simp only [List.length_cons] at hi
          match i with
          | 0 =>
            refine ⟨?_, ?_⟩
            · intro h0
              rw [Nat.add_zero, hA pos (le_refl _) (by omega)]
              refine hframe1 pos (Or.inl (by omega)) (Or.inl ?_)
              simp only [List.length_cons] at hpos
              omega
            · intro c hc
              simp at hc
          | i + 1 =>
            have hthis := hcells i (by omega)
            refine ⟨?_, ?_⟩
            · intro h0
              rw [show pos + (i + 1) = pos + 1 + i by omega]
              exact hthis.1 (by simpa using h0)
            · intro c hc
              have h2 := hthis.2 c (by simpa using hc)
              rw [show pos + (i + 1) = pos + 1 + i by omega]
              rw [show List.take (i + 1) (none :: tl) = none :: List.take i tl from rfl,
                getSizeList]
              exact h2
        · rw [blocksChildren]
          exact hblocks
      · rw [pruneChildList, serializeChildren, serializeChildren]
        exact hprune1
    | some c =>
      have hSR := hIH c (List.mem_cons_self _ _)
      rw [getSizeList] at harr hzero
      have hposlt : pos < start := by
        simp only [List.length_cons] at hpos
        omega
      obtain ⟨arr1c, hserc, hlenc, hframec, hdecc, hprunec⟩ :=
        hSR start (arr.set pos (start : Int))
          (by rw [List.length_set]; omega)
          (by
            intro j hj1 hj2
            rw [getD_set_ne _ _ _ _ _ (by omega)]
            exact hzero j hj1 (by omega))
      obtain ⟨arrF, hserF, hlenF, hframeF, hdecF, hpruneF⟩ :=
        ih (fun c2 hc => hIH c2 (List.mem_cons_of_mem _ hc)) (pos + 1)
          (start + getSizeRecurse c) arr1c
          (by rw [hlenc, List.length_set]; omega)
          (by simp only [List.length_cons] at hpos; omega)
          (by
            intro j hj1 hj2
            rw [hframec j (Or.inr (by omega)), getD_set_ne _ _ _ _ _ (by omega)]
            exact hzero j (by omega) (by omega))
      refine ⟨arrF, ?_, by rw [hlenF, hlenc, List.length_set], ?_, ?_, ?_⟩
      · rw [serializeChildren, hserc]
        simp only []
        rw [hserF, getSizeList, Nat.add_assoc]
      · intro j h1 h2
        rw [getSizeList] at h2
        simp only [List.length_cons] at h1
        have hstep1 : arrF.getD j 0 = arr1c.getD j 0 := by
          refine hframeF j ?_ ?_
          · rcases h1 with h | h
            · exact Or.inl (by omega)
            · exact Or.inr (by omega)
          · rcases h2 with h | h
            · exact Or.inl (by omega)
            · exact Or.inr (by omega)
        have hstep2 : arr1c.getD j 0 = (arr.set pos (start : Int)).getD j 0 := by
          refine hframec j ?_
          rcases h2 with h | h
          · exact Or.inl h
          · exact Or.inr (by omega)
        rw [hstep1, hstep2, getD_set_ne _ _ _ _ _ (by rcases h1 with h | h <;> omega)]
      · intro arr2 hA hB
        rw [getSizeList] at hB
        simp only [List.length_cons] at hA
        have hagc : Agrees start (start + getSizeRecurse c) arr2 arr1c := by
          intro j hj1 hj2
          rw [hB j hj1 (by omega)]
          refine hframeF j (Or.inr ?_) (Or.inl (by omega))
          simp only [List.length_cons] at hpos
          omega
        obtain ⟨hdecC, hblocksC⟩ := hdecc arr2 hagc
        have hA' : Agrees (pos + 1) (pos + 1 + tl.length) arr2 arrF :=
          fun j hj1 hj2 => hA j (by omega) (by omega)
        have hB' : Agrees (start + getSizeRecurse c)
            (start + getSizeRecurse c + getSizeList tl) arr2 arrF :=
          fun j hj1 hj2 => hB j (by omega) (by omega)
        obtain ⟨hcells, hblocks⟩ := hdecF arr2 hA' hB'
        refine ⟨?_, ?_⟩
        · intro i hi
          simp only [List.length_cons] at hi
          match i with
          | 0 =>
            refine ⟨?_, ?_⟩
            · intro h0
              simp at h0
            · intro c2 hc2
              simp only [List.getD_cons_zero] at hc2
              injection hc2 with hc2e
              subst hc2e
              constructor
              · rw [Nat.add_zero, hA pos (le_refl _) (by omega)]
                rw [hframeF pos (Or.inl (by omega)) (Or.inl (by omega))]
                rw [hframec pos (Or.inl hposlt)]
                rw [getD_set_self _ _ _ _ (by omega)]
                simp [getSizeList]
              · have hrw : start + getSizeList (List.take 0 (some c :: tl)) = start := by
                  simp [getSizeList]
                rw [hrw]
                exact hdecC
          | i + 1 =>
            have hthis := hcells i (by omega)
            refine ⟨?_, ?_⟩
            · intro h0
              have h2 := hthis.1 (by simpa using h0)
              rw [show pos + (i + 1) = pos + 1 + i by omega, h2]
              rw [hframec _ (Or.inl (by simp only [List.length_cons] at hpos; omega))]
              rw [getD_set_ne _ _ _ _ _ (by omega)]
            · intro c2 hc2
              have h2 := hthis.2 c2 (by simpa using hc2)
              rw [show pos + (i + 1) = pos + 1 + i by omega]
              rw [show List.take (i + 1) (some c :: tl) = some c :: List.take i tl
                from rfl, getSizeList, ← Nat.add_assoc]
              exact h2
        · rw [blocksChildren]
          exact BlocksCellsOK_append hblocksC hblocks
      · rw [pruneChildList, serializeChildren, serializeChildren, hprunec, hserc]
        simp only []
        exact hpruneF

/-- Master correctness of `serialize_recurse` on a well-formed subtree of
cube size at least 2: the full `SRSpec` postcondition. -/
theorem serializeRecurse_spec {T : Type} (into : T → Int) (c : Node T)
    (hwf : WF c) (h2s : 2 ≤ c.aabc.size) : SRSpec into c := by
  match c with
  | .Value a v =>
    exfalso
    cases hwf with
    | value a2 v2 h1 =>
      have h2a : 2 ≤ a.size := h2s
      omega
  | .Children a cs =>
    obtain ⟨hpow, hlen, halign, hwfc⟩ := WF_children_inv hwf
    obtain ⟨hev1, hev2⟩ := WF_children_even hwf
    intro idx arr harr hzero
    rw [getSizeRecurse] at harr hzero
    by_cases h2 : a.size = 2
    · have hvals : ∀ c2, some c2 ∈ cs → ∃ av vv, c2 = Node.Value av vv := by
        intro c2 hc2
        obtain ⟨i, hi, hgd⟩ := getD_of_mem hc2
        refine WF_unit_value (hwfc _ _ hgd) ?_
        rw [halign _ _ hgd]
        show a.size / 2 = 1
        omega
      obtain ⟨arrw, hw⟩ := writeLeaves_ok into cs idx arr hvals
      obtain ⟨hlenw, hsz0, hframew, hcellsw⟩ := writeLeaves_spec into cs idx arr arrw hw
      have hgs : getSizeRecurse (Node.Children a cs) = 8 := by
        rw [getSizeRecurse, hsz0]
      refine ⟨arrw, ?_, hlenw, ?_, ?_, ?_⟩
      · rw [serializeRecurse, if_pos h2, hw, hgs]
        simp only []
        have hx : idx + 8 - idx = 8 := by omega
        rw [hx]
      · intro j hj
        rw [hgs] at hj
        refine hframew j ?_
        rw [hlen]
        exact hj
      · intro arr2 hag
        rw [hgs] at hag
        constructor
        · intro p hp fuel hfuel
          have hpa : a.contains p = true := hp
          have hfa : a.size ≤ fuel := hfuel
          match fuel with
          | 0 =>
            exfalso
            omega
          | f + 1 =>
            show decodeAux arr2 (f + 1) a idx p = lookupInt into (Node.Children a cs) p
            rw [decodeAux]
            rw [if_pos h2]
            have hi8 : pointOctant a p < 8 := pointOctant_lt a p
            have hcw := hcellsw (pointOctant a p) (by rw [hlen]; exact hi8)
            rcases hslot : cs.getD (pointOctant a p) none with _ | c2
            · have hz : arr2.getD (idx + pointOctant a p) 0 = 0 := by
                rw [hag _ (by omega) (by omega), hcw.1 hslot]
                exact hzero _ (by omega) (by omega)
              rw [hz]
              exact (lookupInt_eq_none into (lookup_Children_none a cs p hpa hslot)).symm
            · obtain ⟨i2, hi2, hgd2⟩ := getD_of_mem (mem_of_getD hslot)
              obtain ⟨av, vv, hval⟩ := hvals c2 (mem_of_getD hslot)
              subst hval
              have hava : av = octantCube a (pointOctant a p) := halign _ _ hslot
              have havcont : av.contains p = true := by
                rw [hava]
                exact octantCube_pointOctant_contains a p hpa hev1
              have havorigin : av.origin = p := by
                refine (contains_unit_iff av p ?_).1 havcont
                rw [hava]
                show a.size / 2 = 1
                omega
              have hcell : arr2.getD (idx + pointOctant a p) 0 = into vv := by
                rw [hag _ (by omega) (by omega)]
                exact hcw.2 av vv hslot (by omega)
              rw [hcell]
              have hlk : lookup (Node.Children a cs) p = some vv := by
                rw [lookup_Children_some a cs p _ hpa hslot, lookup_Value,
                  if_pos havorigin]
              exact (lookupInt_eq_some into hlk).symm
        · rw [blocksOf, if_pos h2]
          refine BlocksCellsOK_cons ?_ (BlocksCellsOK_nil arr2)
          intro i hi hsz
          exfalso
          have : 2 < a.size := hsz
          omega
      · rw [pruneZeros, if_pos h2, serializeRecurse, serializeRecurse,
          if_pos h2, if_pos h2]
        have hzz : ∀ j, idx ≤ j → j < idx + cs.length → arr.getD j 0 = 0 := by
          intro j h1 h3
          rw [hlen] at h3
          exact hzero j h1 (by omega)
        rw [writeLeaves_prune into cs idx arr hzz]
    · have hIH : ∀ c2, some c2 ∈ cs → SRSpec into c2 := by
        intro c2 hc2
        obtain ⟨i, hi, hgd⟩ := getD_of_mem hc2
        refine serializeRecurse_spec into c2 (hwfc _ _ hgd) ?_
        rw [halign _ _ hgd]
        show 2 ≤ a.size / 2
        obtain ⟨k, hk⟩ := hpow
        match k with
        | 0 =>
          rw [hk] at h2
          exact absurd (by norm_num) h2
        | k + 1 =>
          rw [hk]
          have hp1 : (2 : Nat) ^ (k + 1 + 1) = 2 * 2 ^ (k + 1) := by ring
          rw [hp1, Nat.mul_div_cancel_left _ (by norm_num)]
          calc (2 : Nat) = 2 ^ 1 := rfl
            _ ≤ 2 ^ (k + 1) := Nat.pow_le_pow_right (by norm_num) (by omega)
      obtain ⟨arr1, hser, hlen1, hframe1, hdec1, hprune1⟩ :=
        serializeChildren_spec into cs hIH idx (idx + 8) arr
          (by omega)
          (by omega)
          (by intro j hj1 hj2; exact hzero j (by omega) (by omega))
      have hgs : getSizeRecurse (Node.Children a cs) = 8 + getSizeList cs := by
        rw [getSizeRecurse]
      have h2lt : 2 < a.size := by
        obtain ⟨k, hk⟩ := hpow
        match k with
        | 0 =>
          rw [hk] at h2
          exact absurd (by norm_num) h2
        | k + 1 =>
          rw [hk]
          calc (2 : Nat) < 2 ^ 2 := by norm_num
            _ ≤ 2 ^ (k + 1 + 1) := Nat.pow_le_pow_right (by norm_num) (by omega)
      refine ⟨arr1, ?_, hlen1, ?_, ?_, ?_⟩
      · rw [serializeRecurse, if_neg h2, hser]
        simp only []
        rw [hgs]
        have hx : idx + 8 + getSizeList cs - idx = 8 + getSizeList cs := by omega
        rw [hx]
      · intro j hj
        rw [hgs] at hj
        refine hframe1 j ?_ ?_
        · rcases hj with h | h
          · exact Or.inl h
          · exact Or.inr (by rw [hlen]; omega)
        · rcases hj with h | h
          · exact Or.inl (by omega)
          · exact Or.inr (by omega)
      · intro arr2 hag
        rw [hgs] at hag
        have hagA : Agrees idx (idx + cs.length) arr2 arr1 := by
          intro j h1 h3
          rw [hlen] at h3
          refine hag j h1 (by omega)
        have hagB : Agrees (idx + 8) (idx + 8 + getSizeList cs) arr2 arr1 := by
          intro j h1 h3
          refine hag j (by omega) (by omega)
        obtain ⟨hcells, hblocks⟩ := hdec1 arr2 hagA hagB
        rw [hlen] at hcells
        constructor
        · intro p hp fuel hfuel
          have hpa : a.contains p = true := hp
          have hfa : a.size ≤ fuel := hfuel
          match fuel with
          | 0 =>
            exfalso
            omega
          | f + 1 =>
            show decodeAux arr2 (f + 1) a idx p = lookupInt into (Node.Children a cs) p
            rw [decodeAux]
            rw [if_neg h2]
            have hi8 : pointOctant a p < 8 := pointOctant_lt a p
            rcases hslot : cs.getD (pointOctant a p) none with _ | c2
            · have hz : arr2.getD (idx + pointOctant a p) 0 = 0 := by
                rw [(hcells (pointOctant a p) hi8).1 hslot]
                exact hzero _ (by omega) (by omega)
              rw [hz, if_pos rfl]
              exact (lookupInt_eq_none into (lookup_Children_none a cs p hpa hslot)).symm
            · obtain ⟨hcellv, hdecchild⟩ := (hcells (pointOctant a p) hi8).2 c2 hslot
              rw [hcellv]
              rw [if_neg (by push_cast; omega)]
              rw [Int.toNat_natCast]
              have hchild_aabc : c2.aabc = octantCube a (pointOctant a p) :=
                halign _ _ hslot
              have hcont2 : c2.aabc.contains p = true := by
                rw [hchild_aabc]
                exact octantCube_pointOctant_contains a p hpa hev1
              have hfc : c2.aabc.size ≤ f := by
                have hc2sz : c2.aabc.size = a.size / 2 := by
                  rw [hchild_aabc]
                  rfl
                omega
              have hd := hdecchild p hcont2 f hfc
              rw [hchild_aabc] at hd
              rw [hd]
              exact (lookupInt_congr into (lookup_Children_some a cs p c2 hpa hslot)).symm
        · rw [blocksOf, if_neg h2]
          refine BlocksCellsOK_cons ?_ hblocks
          intro i hi hsz
          rcases hslot : cs.getD i none with _ | c2
          · left
            rw [(hcells i hi).1 hslot]
            exact hzero _ (by omega) (by omega)
          · right
            obtain ⟨hcellv, -⟩ := (hcells i hi).2 c2 hslot
            rw [hcellv]
            push_cast
            omega
      · rw [pruneZeros, if_neg h2, serializeRecurse, serializeRecurse,
          if_neg h2, if_neg h2, hprune1]
termination_by sizeOf c
decreasing_by
  exact sizeOf_child_lt_of_mem hc2 a

/-- `Octree::serialize` on a well-formed octree with a present root: the
buffer decodes per §6 to the tree's leaves at every contained point, all its
block offset cells point forward, and pruning zero-valued leaves from the
root yields the byte-identical buffer. -/
theorem serialize_spec {T : Type} (into : T → Int) (t : Octree T) (n : Node T)
    (hwf : OctWF t) (hroot : t.root = some n) (arr : List Int)
    (h : t.serialize into = .ok arr) :
    (∀ p, n.aabc.contains p = true → decode arr p = lookupInt into n p) ∧
    BlocksCellsOK (blocksOf n 4) arr ∧
    Octree.serialize into { n_leaves := t.n_leaves, root := some (pruneZeros into n) } =
      .ok arr := by
  have hwfn : WF n := by
    rw [OctWF, hroot] at hwf
    exact hwf
  cases hwfn with
  | value a v h1 =>
    exfalso
    simp only [Octree.serialize, Octree.get_serialized_size, hroot] at h
    split at h
    · cases h
    · rename_i arr2 sz hres
      rw [serializeRecurse] at hres
      cases hres
  | children a cs hpow hlen halign hwfc =>
    simp only [Octree.serialize, Octree.get_serialized_size, hroot] at h
    split at h
    · cases h
    · rename_i arr2 sz hres
      injection h with he
      subst he
      have hsz2 : 2 ≤ (Node.Children a cs).aabc.size := by
        obtain ⟨k, hk⟩ := hpow
        show 2 ≤ a.size
        rw [hk]
        calc (2 : Nat) = 2 ^ 1 := rfl
          _ ≤ 2 ^ (k + 1) := Nat.pow_le_pow_right (by norm_num) (by omega)
      obtain ⟨arrS, hserS, hlenS, hframeS, hdecS, hpruneS⟩ :=
        serializeRecurse_spec into (Node.Children a cs)
          (WF.children a cs hpow hlen halign hwfc) hsz2 4
          (((((List.replicate (4 + getSizeRecurse (Node.Children a cs)) 0).set 0
              ((Node.Children a cs).aabc.size : Int)).set 1
              (Node.Children a cs).aabc.origin.x).set 2
              (Node.Children a cs).aabc.origin.y).set 3
              (Node.Children a cs).aabc.origin.z)
          (by simp [List.length_set, List.length_replicate])
          (by
            intro j h1 h2
            rw [getD_set_ne _ _ _ _ _ (by omega), getD_set_ne _ _ _ _ _ (by omega),
              getD_set_ne _ _ _ _ _ (by omega), getD_set_ne _ _ _ _ _ (by omega),
              getD_replicate])
      rw [hserS] at hres
      injection hres with hp2
      injection hp2 with hA hS
      subst hA
      have hlen4 : arrS.length = 4 + getSizeRecurse (Node.Children a cs) := by
        rw [hlenS]
        simp [List.length_set, List.length_replicate]
      have hc0 : arrS.getD 0 0 = ((Node.Children a cs).aabc.size : Int) := by
        rw [hframeS 0 (Or.inl (by omega)), getD_set_ne _ _ _ _ _ (by omega),
          getD_set_ne _ _ _ _ _ (by omega), getD_set_ne _ _ _ _ _ (by omega),
          getD_set_self _ _ _ _ (by simp [List.length_set, List.length_replicate])]
      have hc1 : arrS.getD 1 0 = (Node.Children a cs).aabc.origin.x := by
        rw [hframeS 1 (Or.inl (by omega)), getD_set_ne _ _ _ _ _ (by omega),
          getD_set_ne _ _ _ _ _ (by omega),
          getD_set_self _ _ _ _ (by simp [List.length_set, List.length_replicate]; omega)]
      have hc2 : arrS.getD 2 0 = (Node.Children a cs).aabc.origin.y := by
        rw [hframeS 2 (Or.inl (by omega)), getD_set_ne _ _ _ _ _ (by omega),
          getD_set_self _ _ _ _ (by simp [List.length_set, List.length_replicate]; omega)]
      have hc3 : arrS.getD 3 0 = (Node.Children a cs).aabc.origin.z := by
        rw [hframeS 3 (Or.inl (by omega)),
          getD_set_self _ _ _ _ (by simp [List.length_set, List.length_replicate]; omega)]
      obtain ⟨hdecok, hblocksok⟩ := hdecS arrS (fun j h1 h2 => rfl)
      refine ⟨?_, hblocksok, ?_⟩
      · intro p hp
        rw [decode_eq_of_header arrS p (by omega)]
        rw [hc0, hc1, hc2, hc3, Int.toNat_natCast]
        exact hdecok p hp _ (le_refl _)
      · simp only [Octree.serialize, Octree.get_serialized_size]
        rw [getSizeRecurse_prune, pruneZeros_aabc, hpruneS, hserS]

/-! ## Building trees by repeated insertion -/

/-- Folding `insert_leaf` over a list of inserts preserves well-formedness
and yields the pointwise "last insert at this position wins" lookup. -/
theorem foldl_insert_invariant {T : Type} (ins : List (T × V3)) :
    ∀ (t0 t : Octree T), OctWF t0 →
      List.foldlM (fun t vp => Octree.insert_leaf t vp.1 vp.2) t0 ins = .ok t →
      OctWF t ∧ ∀ q, lookupO t q =
        ins.foldl (fun acc vp => if vp.2 = q then some vp.1 else acc) (lookupO t0 q) := by
  induction ins with
  | nil =>
    intro t0 t hwf0 h
    rw [List.foldlM_nil] at h
    injection h with he
    subst he
    exact ⟨hwf0, fun q => rfl⟩
  | cons hd tl ih =>
    intro t0 t hwf0 h
    rw [List.foldlM_cons] at h
    rcases hstep : Octree.insert_leaf t0 hd.1 hd.2 with ⟨f, te⟩ | t1
    · rw [hstep] at h
      cases h
    · rw [hstep] at h
      have h' : List.foldlM (fun t vp => Octree.insert_leaf t vp.1 vp.2) t1 tl = .ok t := h
      obtain ⟨hwf1, -, hlk1⟩ := insert_leaf_ok t0 hd.1 hd.2 t1 hwf0 hstep
      obtain ⟨hwfT, hlkT⟩ := ih t1 t hwf1 h'
      refine ⟨hwfT, ?_⟩
      intro q
      rw [hlkT q, List.foldl_cons]
      congr 1
      rw [hlk1 q]
      by_cases hq : q = hd.2
      · rw [if_pos hq, if_pos hq.symm]
      · rw [if_neg hq, if_neg (fun he => hq he.symm)]

theorem foldl_lookup_absent {T : Type} (ins : List (T × V3)) :
    ∀ (q : V3), (∀ d, (d, q) ∉ ins) →
      ∀ base, ins.foldl (fun acc vp => if vp.2 = q then some vp.1 else acc) base = base := by
  induction ins with
  | nil =>
    intro q h base
    rfl
  | cons hd tl ih =>
    intro q h base
    rw [List.foldl_cons]
    have hne : hd.2 ≠ q := by
      intro he
      have heq : (hd.1, q) = hd := by
        rw [← he]
      exact h hd.1 (List.mem_cons.2 (Or.inl heq))
    rw [if_neg hne]
    exact ih q (fun d hd2 => h d (List.mem_cons_of_mem _ hd2)) base

theorem foldl_lookup_mem {T : Type} (ins : List (T × V3)) :
    ∀ (d : T) (q : V3), List.Pairwise (· ≠ ·) (ins.map Prod.snd) → (d, q) ∈ ins →
      ∀ base, ins.foldl (fun acc vp => if vp.2 = q then some vp.1 else acc) base = some d := by
  induction ins with
  | nil =>
    intro d q hdist hmem
    cases hmem
  | cons hd tl ih =>
    intro d q hdist hmem base
    rw [List.map_cons, List.pairwise_cons] at hdist
    rw [List.foldl_cons]
    rcases List.mem_cons.1 hmem with he | hmem2
    · subst he
      rw [if_pos rfl]
      refine foldl_lookup_absent tl q ?_ (some d)
      intro d2 hd2
      exact (hdist.1 q (List.mem_map_of_mem Prod.snd hd2)) rfl
    · have hne : hd.2 ≠ q := hdist.1 q (List.mem_map_of_mem Prod.snd hmem2)
      rw [if_neg hne]
      exact ih d q hdist.2 hmem2 base

/-- Claim C1: round-trip through the buffer.  For every octree built by
`insert_leaf` calls at pairwise-distinct positions whose root is a
`Children` node, §6-decoding the array returned by `serialize` yields the
originally inserted value (through `Into<i32>`) at every inserted position,
and zero (empty/no voxel) at every non-inserted position contained in the
root cube. -/
theorem serialize_roundtrip {T : Type} (into : T → Int) (ins : List (T × V3))
    (t : Octree T) (hdist : List.Pairwise (· ≠ ·) (ins.map Prod.snd))
    (hbuild : buildTree ins = .ok t) (n : Node T) (hroot : t.root = some n)
    (arr : List Int) (hser : t.serialize into = .ok arr) :
    (∀ d p, (d, p) ∈ ins → decode arr p = into d) ∧
    (∀ p, n.aabc.contains p = true → (∀ d, (d, p) ∉ ins) → decode arr p = 0) := by
  rw [buildTree] at hbuild
  obtain ⟨hwfT, hlkT⟩ := foldl_insert_invariant ins Octree.new t trivial hbuild
  have hwfn : WF n := by
    rw [OctWF, hroot] at hwfT
    exact hwfT
  obtain ⟨hdec, -, -⟩ := serialize_spec into t n hwfT hroot arr hser
  constructor
  · intro d p hmem
    have hlk : lookupO t p = some d := by
      rw [hlkT p, show lookupO (Octree.new : Octree T) p = none from rfl]
      exact foldl_lookup_mem ins d p hdist hmem none
    have hlkn : lookup n p = some d := by
      rw [lookupO, hroot] at hlk
      exact hlk
    have hcont : n.aabc.contains p = true := lookup_some_contains hwfn hlkn
    rw [hdec p hcont]
    exact lookupInt_eq_some into hlkn
  · intro p hcont habs
    rw [hdec p hcont]
    have hlk : lookupO t p = none := by
      rw [hlkT p, show lookupO (Octree.new : Octree T) p = none from rfl]
      exact foldl_lookup_absent ins p habs none
    have hlkn : lookup n p = none := by
      rw [lookupO, hroot] at hlk
      exact hlk
    exact lookupInt_eq_none into hlkn

/-- Claim C9 (implicit): forward-only offsets.  In every buffer produced by
`serialize` on a well-formed octree with a present root, every cell of every
emitted block that belongs to a node of cube size greater than 2 is either 0
or an absolute index at least 8 past its block's start cell — so following
offsets during the §6 descent always moves strictly forward. -/
theorem serialize_forward_offsets {T : Type} (into : T → Int) (t : Octree T)
    (hwf : OctWF t) (n : Node T) (hroot : t.root = some n) (arr : List Int)
    (h : t.serialize into = .ok arr) : BlocksCellsOK (blocksOf n 4) arr :=
  (serialize_spec into t n hwf hroot arr h).2.1

/-- Claim C10 (implicit): zero-valued voxels are encoded as empty.  Pruning
every leaf whose payload converts to 0 from the root yields the
byte-identical serialized buffer (the cell written for such a leaf is 0,
exactly the encoding of an absent octant), and the §6 decoder reports such an
inserted position as empty. -/
theorem serialize_prune_zeros {T : Type} (into : T → Int) (t : Octree T)
    (hwf : OctWF t) (n : Node T) (hroot : t.root = some n) (arr : List Int)
    (h : t.serialize into = .ok arr) :
    Octree.serialize into { n_leaves := t.n_leaves, root := some (pruneZeros into n) } =
      .ok arr ∧
    ∀ p v, lookup n p = some v → into v = 0 → decode arr p = 0 := by
  obtain ⟨hdec, -, hprune⟩ := serialize_spec into t n hwf hroot arr h
  refine ⟨hprune, ?_⟩
  intro p v hlk hz
  have hwfn : WF n := by
    rw [OctWF, hroot] at hwf
    exact hwf
  have hcont := lookup_some_contains hwfn hlk
  rw [hdec p hcont, lookupInt_eq_some into hlk, hz]

set_option maxHeartbeats 2000000 in
set_option maxRecDepth 10000 in
/-- The C1 theorem applied at the concrete two-insert octree of the
repository's `insert_two_leaves` test and its serialized buffer. -/
theorem serialize_roundtrip_witness :
    (∀ d p, (d, p) ∈ [((1 : Int), (⟨0,0,0⟩ : V3)), (2, ⟨1,0,0⟩)] →
      decode [2, 0, 0, 0, 0, 0, 0, 0, 0, 2, 1, 0] p = id d) ∧
    (∀ p, (Node.Children ⟨⟨0,0,0⟩,2⟩ [none, none, none, none, none,
        some (.Value ⟨⟨1,0,0⟩,1⟩ (2 : Int)), some (.Value ⟨⟨0,0,0⟩,1⟩ 1),
        none]).aabc.contains p = true →
      (∀ d, (d, p) ∉ [((1 : Int), (⟨0,0,0⟩ : V3)), (2, ⟨1,0,0⟩)]) →
      decode [2, 0, 0, 0, 0, 0, 0, 0, 0, 2, 1, 0] p = 0) := by
  have h1 : (Octree.new : Octree Int).insert_leaf 1 ⟨0,0,0⟩ =
      .ok ⟨1, some (.Value ⟨⟨0,0,0⟩,1⟩ 1)⟩ := by
    simp [Octree.new, Octree.insert_leaf, Node.newLeaf]
  have h2 : (⟨1, some (.Value ⟨⟨0,0,0⟩,1⟩ 1)⟩ : Octree Int).insert_leaf 2 ⟨1,0,0⟩ =
      .ok ⟨2, some (.Children ⟨⟨0,0,0⟩,2⟩ [none, none, none, none, none,
        some (.Value ⟨⟨1,0,0⟩,1⟩ 2), some (.Value ⟨⟨0,0,0⟩,1⟩ 1), none])⟩ := by
    simp [Octree.insert_leaf, expandLoop, Aabc.expand_towards, Aabc.expandCore,
      Node.add_down, Node.add_child, getOctantIdx, octantContains, Aabc.contains,
      Aabc.contains_aabc, Node.aabc, Node.newLeaf, Node.empty]
  have hbuild : buildTree [((1 : Int), (⟨0,0,0⟩ : V3)), (2, ⟨1,0,0⟩)] =
      .ok ⟨2, some (.Children ⟨⟨0,0,0⟩,2⟩ [none, none, none, none, none,
        some (.Value ⟨⟨1,0,0⟩,1⟩ 2), some (.Value ⟨⟨0,0,0⟩,1⟩ 1), none])⟩ := by
    simp only [buildTree, List.foldlM_cons, List.foldlM_nil, h1, h2, bind,
      Except.bind, pure, Except.pure]
  have hser : Octree.serialize id (⟨2, some (.Children ⟨⟨0,0,0⟩,2⟩ [none, none,
      none, none, none, some (.Value ⟨⟨1,0,0⟩,1⟩ 2), some (.Value ⟨⟨0,0,0⟩,1⟩ 1),
      none])⟩ : Octree Int) = .ok [2, 0, 0, 0, 0, 0, 0, 0, 0, 2, 1, 0] := by
    simp [Octree.serialize, Octree.get_serialized_size, getSizeRecurse, getSizeList,
      serializeRecurse, serializeChildren, writeLeaves, Node.aabc, List.replicate]
  exact serialize_roundtrip id [((1 : Int), (⟨0,0,0⟩ : V3)), (2, ⟨1,0,0⟩)]
    ⟨2, some (.Children ⟨⟨0,0,0⟩,2⟩ [none, none, none, none, none,
      some (.Value ⟨⟨1,0,0⟩,1⟩ 2), some (.Value ⟨⟨0,0,0⟩,1⟩ 1), none])⟩
    (by decide) hbuild
    (.Children ⟨⟨0,0,0⟩,2⟩ [none, none, none, none, none,
      some (.Value ⟨⟨1,0,0⟩,1⟩ 2), some (.Value ⟨⟨0,0,0⟩,1⟩ 1), none]) rfl
    [2, 0, 0, 0, 0, 0, 0, 0, 0, 2, 1, 0] hser

set_option maxHeartbeats 2000000 in
set_option maxRecDepth 10000 in
/-- The C9 theorem applied at the concrete two-leaf octree and its buffer. -/
theorem serialize_forward_offsets_witness :
    BlocksCellsOK (blocksOf (Node.Children ⟨⟨0,0,0⟩,2⟩ [none, none, none, none, none,
      some (.Value ⟨⟨1,0,0⟩,1⟩ (2 : Int)), some (.Value ⟨⟨0,0,0⟩,1⟩ 1), none]) 4)
      [2, 0, 0, 0, 0, 0, 0, 0, 0, 2, 1, 0] := by
  have hser : Octree.serialize id (⟨2, some (.Children ⟨⟨0,0,0⟩,2⟩ [none, none,
      none, none, none, some (.Value ⟨⟨1,0,0⟩,1⟩ 2), some (.Value ⟨⟨0,0,0⟩,1⟩ 1),
      none])⟩ : Octree Int) = .ok [2, 0, 0, 0, 0, 0, 0, 0, 0, 2, 1, 0] := by
    simp [Octree.serialize, Octree.get_serialized_size, getSizeRecurse, getSizeList,
      serializeRecurse, serializeChildren, writeLeaves, Node.aabc, List.replicate]
  exact serialize_forward_offsets id ⟨2, some (.Children ⟨⟨0,0,0⟩,2⟩ [none, none,
      none, none, none, some (.Value ⟨⟨1,0,0⟩,1⟩ 2), some (.Value ⟨⟨0,0,0⟩,1⟩ 1),
      none])⟩ (WF_twoLeaf 2 1)
    (.Children ⟨⟨0,0,0⟩,2⟩ [none, none, none, none, none,
      some (.Value ⟨⟨1,0,0⟩,1⟩ 2), some (.Value ⟨⟨0,0,0⟩,1⟩ 1), none]) rfl
    [2, 0, 0, 0, 0, 0, 0, 0, 0, 2, 1, 0] hser

set_option maxHeartbeats 2000000 in
set_option maxRecDepth 10000 in
/-- The C10 theorem applied at a concrete two-leaf octree holding one
zero-valued leaf: the pruned tree serializes to the identical buffer and the
decoder reports the zero-valued position as empty. -/
theorem serialize_prune_zeros_witness :
    (Octree.serialize id ({ n_leaves := 2, root := some (pruneZeros id
        (Node.Children ⟨⟨0,0,0⟩,2⟩ [none, none, none, none, none,
          some (.Value ⟨⟨1,0,0⟩,1⟩ 5), some (.Value ⟨⟨0,0,0⟩,1⟩ 0), none])) } :
      Octree Int) = .ok [2, 0, 0, 0, 0, 0, 0, 0, 0, 5, 0, 0]) ∧
    (∀ p v, lookup (Node.Children ⟨⟨0,0,0⟩,2⟩ [none, none, none, none, none,
        some (.Value ⟨⟨1,0,0⟩,1⟩ (5 : Int)), some (.Value ⟨⟨0,0,0⟩,1⟩ 0), none]) p =
          some v →
      id v = 0 → decode [2, 0, 0, 0, 0, 0, 0, 0, 0, 5, 0, 0] p = 0) := by
  have hser : Octree.serialize id (⟨2, some (.Children ⟨⟨0,0,0⟩,2⟩ [none, none,
      none, none, none, some (.Value ⟨⟨1,0,0⟩,1⟩ 5), some (.Value ⟨⟨0,0,0⟩,1⟩ 0),
      none])⟩ : Octree Int) = .ok [2, 0, 0, 0, 0, 0, 0, 0, 0, 5, 0, 0] := by
    simp [Octree.serialize, Octree.get_serialized_size, getSizeRecurse, getSizeList,
      serializeRecurse, serializeChildren, writeLeaves, Node.aabc, List.replicate]
  exact serialize_prune_zeros id ⟨2, some (.Children ⟨⟨0,0,0⟩,2⟩ [none, none,
      none, none, none, some (.Value ⟨⟨1,0,0⟩,1⟩ 5), some (.Value ⟨⟨0,0,0⟩,1⟩ 0),
      none])⟩ (WF_twoLeaf 5 0)
    (.Children ⟨⟨0,0,0⟩,2⟩ [none, none, none, none, none,
      some (.Value ⟨⟨1,0,0⟩,1⟩ 5), some (.Value ⟨⟨0,0,0⟩,1⟩ 0), none]) rfl
    [2, 0, 0, 0, 0, 0, 0, 0, 0, 5, 0, 0] hser

end Rtvox
